import Mathlib

/-!
Verification of the merge/classifier logic of `lib/AIModelsCatalog/list_all_ai_models.py`.

The script reconciles a persisted JSON catalog of AI-model records against
freshly fetched provider listings.  We shallowly embed the Python code:
JSON values become `JValue`, Python dicts become insertion-ordered
association lists (`JObj`) with unique keys, exceptions become `Except PyErr`,
and `sorted` (a stable sort) becomes `List.mergeSort` on key-decorated pairs.
-/

set_option maxHeartbeats 1000000

/-- A parsed JSON value (the shape handled by the script).  Numbers are
modelled as integers; no claim performs numeric arithmetic. -/
inductive JValue where
  | null : JValue
  | bool (b : Bool) : JValue
  | num (n : Int) : JValue
  | str (s : String) : JValue
  | arr (xs : List JValue) : JValue
  | obj (kvs : List (String × JValue)) : JValue
deriving Repr

mutual

/-- Boolean equality on JSON values (Python `==` on parsed JSON data). -/
def JValue.beq : JValue → JValue → Bool
  | .null, .null => true
  | .bool a, .bool b => a == b
  | .num a, .num b => a == b
  | .str a, .str b => a == b
  | .arr xs, .arr ys => JValue.beqList xs ys
  | .obj kvs, .obj kvs' => JValue.beqPairs kvs kvs'
  | _, _ => false

def JValue.beqList : List JValue → List JValue → Bool
  | [], [] => true
  | x :: xs, y :: ys => JValue.beq x y && JValue.beqList xs ys
  | _, _ => false

def JValue.beqPairs : List (String × JValue) → List (String × JValue) → Bool
  | [], [] => true
  | (k, v) :: xs, (k', v') :: ys => k == k' && JValue.beq v v' && JValue.beqPairs xs ys
  | _, _ => false

end

mutual

theorem JValue.eq_of_beq : ∀ {a b : JValue}, JValue.beq a b = true → a = b
  | .null, b, h => by cases b <;> simp_all [JValue.beq]
  | .bool x, b, h => by cases b <;> simp_all [JValue.beq]
  | .num x, b, h => by cases b <;> simp_all [JValue.beq]
  | .str x, b, h => by cases b <;> simp_all [JValue.beq]
  | .arr xs, b, h => by
      cases b <;> simp_all [JValue.beq]
      exact JValue.eqList_of_beq h
  | .obj kvs, b, h => by
      cases b <;> simp_all [JValue.beq]
      exact JValue.eqPairs_of_beq h

theorem JValue.eqList_of_beq : ∀ {xs ys : List JValue}, JValue.beqList xs ys = true → xs = ys
  | [], ys, h => by cases ys <;> simp_all [JValue.beqList]
  | x :: xs, ys, h => by
      cases ys with
      | nil => simp_all [JValue.beqList]
      | cons y ys =>
        simp only [JValue.beqList, Bool.and_eq_true] at h
        rw [JValue.eq_of_beq h.1, JValue.eqList_of_beq h.2]

theorem JValue.eqPairs_of_beq :
    ∀ {xs ys : List (String × JValue)}, JValue.beqPairs xs ys = true → xs = ys
  | [], ys, h => by cases ys <;> simp_all [JValue.beqPairs]
  | (k, v) :: xs, ys, h => by
      cases ys with
      | nil => simp_all [JValue.beqPairs]
      | cons q ys =>
        obtain ⟨k', v'⟩ := q
        simp only [JValue.beqPairs, Bool.and_eq_true, beq_iff_eq] at h
        rw [h.1.1, JValue.eq_of_beq h.1.2, JValue.eqPairs_of_beq h.2]

end

mutual

theorem JValue.beq_refl : ∀ (a : JValue), JValue.beq a a = true
  | .null => rfl
  | .bool x => by simp [JValue.beq]
  | .num x => by simp [JValue.beq]
  | .str x => by simp [JValue.beq]
  | .arr xs => by simp [JValue.beq, JValue.beqList_refl xs]
  | .obj kvs => by simp [JValue.beq, JValue.beqPairs_refl kvs]

theorem JValue.beqList_refl : ∀ (xs : List JValue), JValue.beqList xs xs = true
  | [] => rfl
  | x :: xs => by simp [JValue.beqList, JValue.beq_refl x, JValue.beqList_refl xs]

theorem JValue.beqPairs_refl : ∀ (xs : List (String × JValue)), JValue.beqPairs xs xs = true
  | [] => rfl
  | (k, v) :: xs => by simp [JValue.beqPairs, JValue.beq_refl v, JValue.beqPairs_refl xs]

end

instance : DecidableEq JValue := fun a b =>
  if h : JValue.beq a b = true then .isTrue (JValue.eq_of_beq h)
  else .isFalse (fun he => h (he ▸ JValue.beq_refl a))

/-- A Python dict with string keys, as an insertion-ordered association list.
All dicts built by the script have unique keys, which the operations below
preserve. -/
abbrev JObj := List (String × JValue)

namespace JObj

/-- `d.get(k)` / `k in d`: the first (= unique) binding of `k`. -/
def find (o : JObj) (k : String) : Option JValue :=
  match o with
  | [] => none
  | (k', v) :: rest => if k' = k then some v else find rest k

/-- Python `k in d`. -/
def hasKey (o : JObj) (k : String) : Bool := (o.find k).isSome

/-- Python `d[k] = v`: replace the binding in place if the key is present
(keeping its position), otherwise append a new binding. -/
def set (o : JObj) (k : String) (v : JValue) : JObj :=
  match o with
  | [] => [(k, v)]
  | (k', v') :: rest => if k' = k then (k', v) :: rest else (k', v') :: set rest k v

/-- The key sequence of a dict. -/
def keys (o : JObj) : List String := o.map Prod.fst

end JObj

theorem JObj.find_set_self (o : JObj) (k : String) (v : JValue) :
    (o.set k v).find k = some v := by
  induction o with
  | nil => simp [JObj.set, JObj.find]
  | cons p rest ih =>
    by_cases h : p.1 = k <;> simp [JObj.set, JObj.find, h, ih]

theorem JObj.find_set_ne (o : JObj) (k k' : String) (v : JValue) (h : k' ≠ k) :
    (o.set k v).find k' = o.find k' := by
  have hkk : ¬ k = k' := fun hh => h hh.symm
  induction o with
  | nil => simp [JObj.set, JObj.find, hkk]
  | cons p rest ih =>
    by_cases hp : p.1 = k
    · simp [JObj.set, JObj.find, hp, hkk]
    · by_cases hq : p.1 = k' <;> simp [JObj.set, JObj.find, hp, hq, hkk, h, ih]

theorem JObj.keys_set_of_hasKey (o : JObj) (k : String) (v : JValue)
    (h : o.hasKey k = true) : (o.set k v).keys = o.keys := by
  induction o with
  | nil => simp [JObj.hasKey, JObj.find] at h
  | cons p rest ih =>
    by_cases hp : p.1 = k
    · simp [JObj.set, JObj.keys, hp]
    · have h' : JObj.hasKey rest k = true := by
        simpa [JObj.hasKey, JObj.find, hp] using h
      simp [JObj.set, JObj.keys, hp]
      simpa [JObj.keys] using ih h'

theorem JObj.hasKey_set (o : JObj) (k k' : String) (v : JValue) :
    (o.set k v).hasKey k' = (o.hasKey k' || decide (k' = k)) := by
  by_cases h : k' = k
  · subst h; simp [JObj.hasKey, JObj.find_set_self]
  · simp [JObj.hasKey, JObj.find_set_ne o k k' v h, h]

/-- Two dicts with the same (duplicate-free) key sequence and the same
lookups are equal. -/
theorem JObj.ext_of_keys_of_find (o₁ o₂ : JObj)
    (hk : o₁.keys = o₂.keys) (hnd : o₁.keys.Nodup)
    (hf : ∀ k ∈ o₁.keys, o₁.find k = o₂.find k) : o₁ = o₂ := by
  induction o₁ generalizing o₂ with
  | nil =>
    cases o₂ with
    | nil => rfl
    | cons q rest => simp [JObj.keys] at hk
  | cons p rest ih =>
    cases o₂ with
    | nil => simp [JObj.keys] at hk
    | cons q rest₂ =>
      simp only [JObj.keys, List.map_cons, List.cons.injEq] at hk
      obtain ⟨hk1, hk2⟩ := hk
      simp only [JObj.keys, List.map_cons, List.nodup_cons] at hnd
      have h1 := hf p.1 (by simp [JObj.keys])
      simp only [JObj.find, if_pos rfl, hk1, if_pos rfl] at h1
      have hpq : p = q := by
        cases p; cases q
        simp_all
      subst hpq
      have : rest = rest₂ := by
        apply ih rest₂ hk2 hnd.2
        intro k hkmem
        have hne : ¬ p.1 = k := fun hh => hnd.1 (hh ▸ hkmem)
        have hmem2 : k ∈ JObj.keys (p :: rest) := by
          simp only [JObj.keys, List.map_cons, List.mem_cons]
          exact Or.inr hkmem
        have := hf k hmem2
        simpa [JObj.find, hne] using this
      rw [this]

/-! ### String helpers (ASCII models of the Python string operations used) -/

/-- `pre` is a prefix of `s` (Python `str.startswith`). -/
def listStartsWith : List Char → List Char → Bool
  | [], _ => true
  | _ :: _, [] => false
  | p :: ps, c :: cs => p = c && listStartsWith ps cs

def strStartsWith (s pre : String) : Bool := listStartsWith pre.toList s.toList

def listSubIn (sub : List Char) : List Char → Bool
  | [] => listStartsWith sub []
  | c :: cs => listStartsWith sub (c :: cs) || listSubIn sub cs

/-- Python `sub in s` (substring test). -/
def subIn (sub s : String) : Bool := listSubIn sub.toList s.toList

/-- Python `str.lower` for the ASCII strings handled by the script. -/
def strLower (s : String) : String := String.mk (s.toList.map Char.toLower)

/-- Strip `pat` from the front of `s`, if it is a prefix. -/
def stripFront : List Char → List Char → Option (List Char)
  | [], s => some s
  | _ :: _, [] => none
  | p :: ps, c :: cs => if p = c then stripFront ps cs else none

/-- Python `str.replace` (non-overlapping, left to right) for a non-empty
pattern, on character lists.  `fuel` bounds the recursion; every step
consumes at least one character, so fuel equal to the string length gives
the exact replacement. -/
def pyRepFuel (p : Char) (ps rep : List Char) : Nat → List Char → List Char
  | _, [] => []
  | 0, s => s
  | fuel + 1, c :: cs =>
    match stripFront (p :: ps) (c :: cs) with
    | some rem => rep ++ pyRepFuel p ps rep fuel rem
    | none => c :: pyRepFuel p ps rep fuel cs

/-- Python `s.replace(pat, rep)`.  The script never calls it with an empty
pattern, for which this model is the identity. -/
def pyReplace (s pat rep : String) : String :=
  match pat.toList with
  | [] => s
  | p :: ps => String.mk (pyRepFuel p ps rep.toList s.toList.length s.toList)

/-- Python `str.title` on ASCII: a letter that follows a non-letter is
uppercased, a letter that follows a letter is lowercased. -/
def pyTitleList : Bool → List Char → List Char
  | _, [] => []
  | prevAlpha, c :: cs =>
    if c.isAlpha then
      (if prevAlpha then c.toLower else c.toUpper) :: pyTitleList true cs
    else
      c :: pyTitleList false cs

def pyTitle (s : String) : String := String.mk (pyTitleList false s.toList)

/-- Python `re.search(r'exp.*(pro|advanced)', s)` as a boolean: some
occurrence of `"exp"` is followed, after its end, by `"pro"` or
`"advanced"` (model ids contain no newline, so `.` matches everything). -/
def listExpProAdvanced : List Char → Bool
  | [] => false
  | c :: cs =>
    (listStartsWith ['e', 'x', 'p'] (c :: cs)
      && (listSubIn ['p', 'r', 'o'] ((c :: cs).drop 3)
          || listSubIn ['a', 'd', 'v', 'a', 'n', 'c', 'e', 'd'] ((c :: cs).drop 3)))
    || listExpProAdvanced cs

def expProAdvanced (s : String) : Bool := listExpProAdvanced s.toList

/-- Python truthiness of a JSON value. -/
def jTruthy : JValue → Bool
  | .null => false
  | .bool b => b
  | .num n => n ≠ 0
  | .str s => s ≠ ""
  | .arr xs => ¬ xs.isEmpty
  | .obj kvs => ¬ kvs.isEmpty

/-! ### The heuristic classifier (`apply_heuristics_for_new_model`, lines 58-151) -/

/-- The six capability flags, in the order of the `capabilities` dict literal
(lines 68-75). -/
structure Caps where
  multiModal : Bool
  canSearch : Bool
  canGenerateImages : Bool
  isAdvancedReasoner : Bool
  canAccessInternet : Bool
  supportsReasoning : Bool
deriving DecidableEq, Repr

/-- Lines 68-75: the provider-agnostic baseline. -/
def defaultCaps : Caps :=
  { multiModal := false, canSearch := false, canGenerateImages := false
    isAdvancedReasoner := false, canAccessInternet := false, supportsReasoning := true }

/-- Lines 77-101: the `google` branch. -/
def googleBranch (mid nml : String) (apiData : Option JObj) (c0 : Caps) : Caps :=
  let c := c0
  let c :=
    if subIn "gemini" mid || subIn "gemini" nml then
      let c := { c with multiModal := true }
      let c :=
        if subIn "pro" mid || subIn "ultra" mid || expProAdvanced mid
            || subIn "gemini-1.5" mid || subIn "gemini-2.5" mid then
          { c with isAdvancedReasoner := true }
        else c
      let c :=
        if subIn "flash" mid && !(subIn "2.5" mid || subIn "exp" mid) then
          { c with isAdvancedReasoner := false }
        else c
      c
    else c
  let c :=
    if subIn "imagen" mid then
      { c with multiModal := true, canGenerateImages := true, supportsReasoning := false }
    else c
  let supportedActionsTruthy :=
    match apiData with
    | none => false
    | some kvs =>
      match JObj.find kvs "supportedActions" with
      | none => false
      | some v => jTruthy v
  let c :=
    if !supportedActionsTruthy && !(subIn "gemini" mid || subIn "imagen" mid) then
      { c with supportsReasoning := false }
    else c
  let c :=
    if subIn "gemini" mid
        && (subIn "1.5" mid || subIn "2.0" mid || subIn "2.5" mid
            || subIn "exp" mid || subIn "preview" mid) then
      let c := { c with canSearch := true, canAccessInternet := true }
      if subIn "2.5" mid || subIn "pro" mid then { c with canGenerateImages := true } else c
    else c
  c

/-- Lines 103-129: the `openai` branch. -/
def openaiBranch (mid : String) (c0 : Caps) : Caps :=
  let c := c0
  let c :=
    if strStartsWith mid "gpt-3.5" then
      { c with multiModal := false, isAdvancedReasoner := false }
    else if strStartsWith mid "gpt-4o" then
      { c with multiModal := true
               isAdvancedReasoner := !(subIn "mini" mid || subIn "nano" mid) }
    else if strStartsWith mid "gpt-4" then
      { c with multiModal := subIn "gpt-4o" mid || subIn "4.1" mid || subIn "4o" mid
               isAdvancedReasoner := true }
    else if strStartsWith mid "gpt-5" then
      { c with multiModal := false, isAdvancedReasoner := true }
    else if strStartsWith mid "o" then
      { c with multiModal := true, isAdvancedReasoner := true && !(subIn "mini" mid) }
    else c
  let c :=
    if strStartsWith mid "dall-e" || strStartsWith mid "gpt-image" then
      { c with multiModal := true, canGenerateImages := true, supportsReasoning := false }
    else c
  c

/-- Lines 132-146: the `anthropic` branch. -/
def anthropicBranch (mid : String) (c0 : Caps) : Caps :=
  let c := c0
  let c := if subIn "claude-3" mid then { c with multiModal := true } else c
  let c :=
    if subIn "opus" mid || subIn "claude-3-5-sonnet" mid || subIn "claude-3.7-sonnet" mid then
      { c with isAdvancedReasoner := true }
    else if subIn "sonnet" mid && subIn "claude-3" mid then
      { c with isAdvancedReasoner := true }
    else if subIn "haiku" mid || subIn "instant" mid then
      { c with isAdvancedReasoner := false }
    else c
  let c :=
    if subIn "claude-3-5-sonnet" mid || subIn "claude-3.7-sonnet" mid then
      { c with canSearch := true, canAccessInternet := true, canGenerateImages := true }
    else c
  c

/-- Lines 58-146 (everything before the final normalization): baseline plus
the provider-specific rules. -/
def rawHeuristics (modelId displayName providerShortId : String)
    (apiData : Option JObj) : Caps :=
  let mid := strLower modelId
  let nml := strLower (if displayName = "" then modelId else displayName)
  if providerShortId = "google" then googleBranch mid nml apiData defaultCaps
  else if providerShortId = "openai" then openaiBranch mid defaultCaps
  else if providerShortId = "anthropic" then anthropicBranch mid defaultCaps
  else defaultCaps

/-- Lines 148-149: the final normalization step. -/
def normalizeCaps (c : Caps) : Caps :=
  if c.supportsReasoning then c else { c with isAdvancedReasoner := false }

/-- `apply_heuristics_for_new_model` (lines 58-151).  `apiData = none` models
the Python default `api_data=None` (treated as `{}`). -/
def apply_heuristics_for_new_model (modelId displayName providerShortId : String)
    (apiData : Option JObj) : Caps :=
  normalizeCaps (rawHeuristics modelId displayName providerShortId apiData)

/-- `capabilities.get(flag, False)` on the classifier result (line 316). -/
def capsGet (c : Caps) (flag : String) : Bool :=
  if flag = "multiModal" then c.multiModal
  else if flag = "canSearch" then c.canSearch
  else if flag = "canGenerateImages" then c.canGenerateImages
  else if flag = "isAdvancedReasoner" then c.isAdvancedReasoner
  else if flag = "canAccessInternet" then c.canAccessInternet
  else if flag = "supportsReasoning" then c.supportsReasoning
  else false

/-- The `capabilities` dict entries, in insertion order (lines 68-75). -/
def capsPairs (c : Caps) : List (String × JValue) :=
  [("multiModal", .bool c.multiModal), ("canSearch", .bool c.canSearch),
   ("canGenerateImages", .bool c.canGenerateImages),
   ("isAdvancedReasoner", .bool c.isAdvancedReasoner),
   ("canAccessInternet", .bool c.canAccessInternet),
   ("supportsReasoning", .bool c.supportsReasoning)]

/-! ### Fetched candidates and `fetch_and_transform_models` (lines 154-186) -/

/-- An unhandled Python exception. -/
inductive PyErr where
  | keyError : PyErr
  | typeError : PyErr
  | attributeError : PyErr
  | unhashable : PyErr
deriving DecidableEq, Repr

deriving instance DecidableEq for Except

/-- A transformed candidate (`schema_entry`, lines 172-179): a dict with
exactly the keys `id`, `provider`, `providerId`, `name` and the six
classifier flags, in that order. -/
structure MRecord where
  id : String
  provider : String
  providerId : String
  name : String
  caps : Caps
deriving DecidableEq, Repr

/-- The `schema_entry` dict of lines 172-179. -/
def MRecord.toJObj (c : MRecord) : JObj :=
  [("id", .str c.id), ("provider", .str c.provider), ("providerId", .str c.providerId),
   ("name", .str c.name)] ++ capsPairs c.caps

/-- The name-derivation of lines 163-170. -/
def deriveName (providerShortId modelId dn : String) : String :=
  if providerShortId = "openai" && !(strStartsWith modelId "dall-e") && modelId = dn then
    let n := pyTitle (pyReplace (pyReplace modelId "-" " ") "_" " ")
    let n := if subIn "Gpt" n then pyReplace n "Gpt" "GPT" else n
    let n := if subIn " Dall E" n then pyReplace n " Dall E" " DALL·E" else n
    n
  else if providerShortId = "google" && strStartsWith modelId "models/" then
    pyTitle (pyReplace (pyReplace dn "models/" "") "-" " ")
  else dn

/-- One iteration of the transformation loop (lines 159-181).  A raw
descriptor that is not a dict raises at `.get`; a non-string id raises at
`.startswith`/`.lower`.  A non-string `displayName` is over-approximated as
an error (in Python some such values survive; no claim depends on them). -/
def transformItem (providerName providerShortId : String) (raw : JValue) :
    Except PyErr MRecord :=
  match raw with
  | .obj kvs =>
    match (JObj.find kvs "id").getD (.str ("unknown_" ++ providerShortId ++ "_id")) with
    | .str modelId =>
      match (JObj.find kvs "displayName").getD (.str modelId) with
      | .str dn =>
        let name := deriveName providerShortId modelId dn
        .ok { id := modelId, provider := providerName, providerId := providerShortId,
              name := name
              caps := apply_heuristics_for_new_model modelId name providerShortId (some kvs) }
      | _ => .error .typeError
    | _ => .error .attributeError
  | _ => .error .attributeError

/-- The `for api_model_data in raw_api_models` loop: an exception stops the
loop, keeping the entries transformed so far. -/
def transformLoop (providerName providerShortId : String) : List JValue → List MRecord
  | [] => []
  | raw :: rest =>
    match transformItem providerName providerShortId raw with
    | .ok r => r :: transformLoop providerName providerShortId rest
    | .error _ => []

/-- `fetch_and_transform_models` (lines 154-186): the `try` block catches any
exception from `fetch_function()` or from the transformation loop and the
function returns whatever `transformed_models` holds at that point. -/
def fetch_and_transform_models (providerName providerShortId : String)
    (fetchResult : Except PyErr (List JValue)) : List MRecord :=
  match fetchResult with
  | .error _ => []
  | .ok raws => transformLoop providerName providerShortId raws

/-- Lines 296-299: the concatenation of the three providers' results. -/
def all_fetched_api_models (googleRes openaiRes anthropicRes : Except PyErr (List JValue)) :
    List MRecord :=
  fetch_and_transform_models "Google Generative AI" "google" googleRes
    ++ fetch_and_transform_models "OpenAI" "openai" openaiRes
    ++ fetch_and_transform_models "Anthropic" "anthropic" anthropicRes

/-! ### The main merge (`main`, lines 257-359) -/

def managed_provider_ids : List String := ["google", "openai", "anthropic"]

/-- Python `m["providerId"] in managed_provider_ids` for an arbitrary value. -/
def isManagedPid (v : JValue) : Bool :=
  managed_provider_ids.any (fun s => v = .str s)

/-- Lines 267-280: load `models.json`.  A malformed document (`data.get`
raising, invalid JSON) is caught and yields the empty list; a `"models"`
value that is a string or dict is *iterable*, so the later comprehensions
iterate its characters/keys; a number (or bool/null) raises `TypeError` at
the comprehension (the `len()` call inside the `try` is caught, but
`current_models_list` keeps the non-list value). -/
def loadCurrent (doc : JValue) : Except PyErr (List JValue) :=
  match doc with
  | .obj kvs =>
    match JObj.find kvs "models" with
    | none => .ok []
    | some (.arr xs) => .ok xs
    | some (.str s) => .ok (s.toList.map (fun c => .str (String.mk [c])))
    | some (.obj kvs') => .ok (kvs'.map (fun kv => .str kv.1))
    | some _ => .error .typeError
  | _ => .ok []

/-- Keys of `existing_managed_models_map`: `(m["providerId"], m["id"])`.
The provider id of a managed record is always one of the three managed
strings. -/
abbrev MKey := String × JValue

/-- A Python value usable as (part of) a dict key. -/
def hashable : JValue → Bool
  | .arr _ => false
  | .obj _ => false
  | _ => true

/-- Python dict insertion: replace in place or append. -/
def mapInsert (mp : List (MKey × JObj)) (k : MKey) (v : JObj) : List (MKey × JObj) :=
  match mp with
  | [] => [(k, v)]
  | (k', v') :: rest => if k' = k then (k', v) :: rest else (k', v') :: mapInsert rest k v

def mapFind (mp : List (MKey × JObj)) (k : MKey) : Option JObj :=
  match mp with
  | [] => none
  | (k', v) :: rest => if k' = k then some v else mapFind rest k

/-- Python `del mp[k]` (the map's keys are unique by construction). -/
def mapErase (mp : List (MKey × JObj)) (k : MKey) : List (MKey × JObj) :=
  match mp with
  | [] => []
  | (k', v) :: rest => if k' = k then mapErase rest k else (k', v) :: mapErase rest k

/-- One record of the dict comprehension of lines 284-287: a non-dict entry
raises `TypeError`, a missing `"providerId"` or `"id"` raises `KeyError`,
an unhashable `"id"` raises `TypeError` when used in the key tuple. -/
def buildMapStep (mp : List (MKey × JObj)) (m : JValue) :
    Except PyErr (List (MKey × JObj)) :=
  match m with
  | .obj kvs =>
    match JObj.find kvs "providerId" with
    | none => .error .keyError
    | some pv =>
      if isManagedPid pv then
        match JObj.find kvs "id" with
        | none => .error .keyError
        | some idv =>
          if hashable idv then
            match pv with
            | .str p => .ok (mapInsert mp (p, idv) kvs)
            | _ => .ok mp
          else .error .unhashable
      else .ok mp
  | _ => .error .typeError

def buildMap : List JValue → List (MKey × JObj) → Except PyErr (List (MKey × JObj))
  | [], mp => .ok mp
  | m :: rest, mp =>
    match buildMapStep mp m with
    | .ok mp' => buildMap rest mp'
    | .error e => .error e

/-- The comprehension of lines 290-292 (`other_provider_models`). -/
def buildOther : List JValue → Except PyErr (List JObj)
  | [] => .ok []
  | m :: rest =>
    match m with
    | .obj kvs =>
      match JObj.find kvs "providerId" with
      | none => .error .keyError
      | some pv =>
        match buildOther rest with
        | .ok tl => .ok (if isManagedPid pv then tl else kvs :: tl)
        | .error e => .error e
    | _ => .error .typeError

/-- The flag list of line 312. -/
def flagNames : List String :=
  ["multiModal", "canSearch", "canGenerateImages", "isAdvancedReasoner",
   "canAccessInternet", "supportsReasoning"]

/-- Lines 309-317: merge one fetched candidate with its existing record.
`updated_entry` starts as a copy of the fresh candidate; with refresh off an
existing flag is copied over; the `elif flag not in updated_entry` branch
re-runs the classifier without api data (it can only fire on a candidate
missing a flag, which `transformItem` never produces). -/
def mergeFlagStep (refreshCaps : Bool) (existing : JObj) (c : MRecord)
    (u : JObj) (flag : String) : JObj :=
  if !refreshCaps && JObj.hasKey existing flag then
    u.set flag ((JObj.find existing flag).getD .null)
  else if !(u.hasKey flag) then
    u.set flag (.bool (capsGet
      (apply_heuristics_for_new_model c.id c.name c.providerId none) flag))
  else u

def mergeEntry (refreshCaps : Bool) (existing : JObj) (c : MRecord) : JObj :=
  flagNames.foldl (mergeFlagStep refreshCaps existing c) c.toJObj

/-- The candidate's lookup key (line 305). -/
def ckey (c : MRecord) : MKey := (c.providerId, .str c.id)

/-- The loop of lines 304-323 over `all_fetched_api_models`, with the map
deletion of line 320. -/
def mergeLoop (refreshCaps : Bool) :
    List MRecord → List (MKey × JObj) → List JObj
  | [], _ => []
  | c :: rest, mp =>
    match mapFind mp (ckey c) with
    | some existing =>
      mergeEntry refreshCaps existing c :: mergeLoop refreshCaps rest (mapErase mp (ckey c))
    | none => c.toJObj :: mergeLoop refreshCaps rest mp

/-- Lines 326-336: the optional OpenAI image probe.  `probe` models
`probe_openai_model_supports_image` (a total boolean: every exception inside
it is swallowed).  The records reaching this step always carry a string id,
so the `""` fallback of the model is never exercised. -/
def probeRecord (probe : String → Bool) (m : JObj) : JObj :=
  if JObj.find m "providerId" = some (.str "openai") then
    let mid := match JObj.find m "id" with
      | some (.str s) => s
      | _ => ""
    let midl := strLower mid
    if strStartsWith midl "gpt-4o" || strStartsWith midl "o" || strStartsWith midl "gpt-5" then
      if probe mid then m.set "multiModal" (.bool true) else m
    else m
  else m

def probeStep (enable : Bool) (probe : String → Bool) (l : List JObj) : List JObj :=
  if enable then l.map (probeRecord probe) else l

/-- The sort key of line 347, `(x["providerId"], x["id"])`.  A missing key
raises `KeyError` while the keys are computed; non-string components are
over-approximated as `TypeError` (Python raises only if the sort actually
compares them with a string). -/
def sortKey (o : JObj) : Except PyErr (String × String) :=
  match JObj.find o "providerId", JObj.find o "id" with
  | some (.str p), some (.str i) => .ok (p, i)
  | none, _ => .error .keyError
  | some _, none => .error .keyError
  | some _, some _ => .error .typeError

/-- Python's string `<`: lexicographic comparison by code point. -/
def charListLT : List Char → List Char → Bool
  | [], [] => false
  | [], _ :: _ => true
  | _ :: _, [] => false
  | c :: cs, d :: ds => c.toNat < d.toNat || (c = d && charListLT cs ds)

def strLT (a b : String) : Bool := charListLT a.toList b.toList

/-- Python's tuple comparison on the sort keys: lexicographic,
`providerId` first, then `id`. -/
def keyLE (a b : String × String) : Bool :=
  strLT a.1 b.1 || (a.1 = b.1 && (strLT a.2 b.2 || a.2 = b.2))

/-- The sort relation on key-decorated records. -/
def recLE (a b : (String × String) × JObj) : Prop := keyLE a.1 b.1 = true

instance : DecidableRel recLE := fun a b => instDecidableEqBool (keyLE a.1 b.1) true

def decorate : List JObj → Except PyErr (List ((String × String) × JObj))
  | [] => .ok []
  | o :: rest =>
    match sortKey o with
    | .ok k =>
      match decorate rest with
      | .ok tl => .ok ((k, o) :: tl)
      | .error e => .error e
    | .error e => .error e

/-- Lines 345-348: Python's `sorted` is a stable sort on the computed keys
(the key function is applied to every element first).  Any stable sort
produces the same list, so insertion sort models `sorted` exactly. -/
def sortStep (l : List JObj) : Except PyErr (List JObj) :=
  match decorate l with
  | .ok keyed => .ok ((List.insertionSort recLE keyed).map Prod.snd)
  | .error e => .error e

/-- `main` after environment loading, with the fetch results, the
`REFRESH_CAPS` / `ENABLE_OPENAI_PROBES` toggles and the probe supplied as
parameters (lines 267-348): load, partition, merge, optionally probe, sort.
The returned list is `final_models_list`. -/
def runMain (doc : JValue) (fetched : List MRecord) (refreshCaps enableProbes : Bool)
    (probe : String → Bool) : Except PyErr (List JObj) :=
  match loadCurrent doc with
  | .error e => .error e
  | .ok current =>
    match buildMap current [] with
    | .error e => .error e
    | .ok mp =>
      match buildOther current with
      | .error e => .error e
      | .ok others =>
        sortStep (probeStep enableProbes probe (mergeLoop refreshCaps fetched mp) ++ others)

/-- Lines 350-359: the write step.  `canWrite = false` models an `IOError`
during `json.dump`; it is caught (`except Exception`), logged, and the run
still terminates normally (`none` = nothing written). -/
def runScript (doc : JValue) (fetched : List MRecord) (refreshCaps enableProbes : Bool)
    (probe : String → Bool) (canWrite : Bool) : Except PyErr (Option (List JObj)) :=
  match runMain doc fetched refreshCaps enableProbes probe with
  | .ok l => .ok (if canWrite then some l else none)
  | .error e => .error e

/-- The JSON document written at line 351 (`{"models": final_models_list}`),
which a later run reads back as its prior catalog. -/
def docOf (l : List JObj) : JValue := .obj [("models", .arr (l.map .obj))]

/-! ### Lemmas about dicts, candidates and the per-record merge -/

theorem JObj.find_isSome_iff_mem_keys (o : JObj) (k : String) :
    (o.find k).isSome = true ↔ k ∈ o.keys := by
  induction o with
  | nil => simp [JObj.find, JObj.keys]
  | cons p rest ih =>
    by_cases h : p.1 = k
    · simp [JObj.find, JObj.keys, h]
    · simp only [JObj.find, h, if_neg, JObj.keys, List.map_cons, List.mem_cons]
      constructor
      · intro hs
        exact Or.inr (ih.mp hs)
      · rintro (hk | hk)
        · exact absurd hk.symm h
        · exact ih.mpr hk

theorem JObj.hasKey_iff_mem_keys (o : JObj) (k : String) :
    o.hasKey k = true ↔ k ∈ o.keys :=
  JObj.find_isSome_iff_mem_keys o k

theorem some_getD_of_hasKey (o : JObj) (k : String) (h : o.hasKey k = true) :
    some ((o.find k).getD .null) = o.find k := by
  have h' : (o.find k).isSome = true := h
  cases hf : o.find k with
  | none => rw [hf] at h'; simp at h'
  | some v => simp

theorem MRecord.toJObj_keys (c : MRecord) :
    (MRecord.toJObj c).keys =
      ["id", "provider", "providerId", "name"] ++ flagNames := by
  simp [MRecord.toJObj, capsPairs, JObj.keys, flagNames]

theorem MRecord.toJObj_hasKey_flag (c : MRecord) (flag : String) (h : flag ∈ flagNames) :
    (MRecord.toJObj c).hasKey flag = true := by
  rw [JObj.hasKey_iff_mem_keys, MRecord.toJObj_keys]
  simp only [List.mem_append]
  exact Or.inr h

theorem MRecord.toJObj_find_flag (c : MRecord) (flag : String) (h : flag ∈ flagNames) :
    (MRecord.toJObj c).find flag = some (.bool (capsGet c.caps flag)) := by
  fin_cases h <;> simp [MRecord.toJObj, capsPairs, JObj.find, capsGet]

theorem MRecord.toJObj_find_base (c : MRecord) :
    (MRecord.toJObj c).find "id" = some (.str c.id)
      ∧ (MRecord.toJObj c).find "provider" = some (.str c.provider)
      ∧ (MRecord.toJObj c).find "providerId" = some (.str c.providerId)
      ∧ (MRecord.toJObj c).find "name" = some (.str c.name) := by
  refine ⟨?_, ?_, ?_, ?_⟩ <;> simp [MRecord.toJObj, capsPairs, JObj.find]

/-- A merge-fold step only rewrites the flag being processed. -/
theorem mergeFlagStep_find_ne (r : Bool) (ex : JObj) (c : MRecord) (u : JObj)
    (flag k : String) (h : k ≠ flag) :
    (mergeFlagStep r ex c u flag).find k = u.find k := by
  unfold mergeFlagStep
  split
  · exact JObj.find_set_ne u flag k _ h
  · split
    · exact JObj.find_set_ne u flag k _ h
    · rfl

theorem mergeFlagStep_hasKey (r : Bool) (ex : JObj) (c : MRecord) (u : JObj)
    (flag k : String) (h : u.hasKey k = true) :
    (mergeFlagStep r ex c u flag).hasKey k = true := by
  unfold mergeFlagStep
  split
  · simp [JObj.hasKey_set, h]
  · split
    · simp [JObj.hasKey_set, h]
    · exact h

theorem mergeFlagStep_keys (r : Bool) (ex : JObj) (c : MRecord) (u : JObj)
    (flag : String) (h : u.hasKey flag = true) :
    (mergeFlagStep r ex c u flag).keys = u.keys := by
  unfold mergeFlagStep
  split
  · exact JObj.keys_set_of_hasKey u flag _ h
  · simp [h]

/-- Folding merge steps over flags not containing `k` leaves `k` alone. -/
theorem mergeFold_find_not_mem (r : Bool) (ex : JObj) (c : MRecord) :
    ∀ (flags : List String) (u : JObj) (k : String), k ∉ flags →
      (flags.foldl (mergeFlagStep r ex c) u).find k = u.find k
  | [], u, k, _ => rfl
  | f :: rest, u, k, hk => by
    have h1 : k ≠ f := fun hh => hk (hh ▸ List.mem_cons_self f rest)
    have h2 : k ∉ rest := fun hh => hk (List.mem_cons_of_mem f hh)
    rw [List.foldl_cons, mergeFold_find_not_mem r ex c rest _ k h2,
      mergeFlagStep_find_ne r ex c u f k h1]

theorem mergeFold_hasKey (r : Bool) (ex : JObj) (c : MRecord) :
    ∀ (flags : List String) (u : JObj) (k : String), u.hasKey k = true →
      (flags.foldl (mergeFlagStep r ex c) u).hasKey k = true
  | [], u, k, h => h
  | f :: rest, u, k, h => by
    rw [List.foldl_cons]
    exact mergeFold_hasKey r ex c rest _ k (mergeFlagStep_hasKey r ex c u f k h)

theorem mergeFold_keys (r : Bool) (ex : JObj) (c : MRecord) :
    ∀ (flags : List String) (u : JObj), (∀ f ∈ flags, u.hasKey f = true) →
      (flags.foldl (mergeFlagStep r ex c) u).keys = u.keys
  | [], u, _ => rfl
  | f :: rest, u, h => by
    rw [List.foldl_cons]
    have hf := h f (List.mem_cons_self f rest)
    have hrest : ∀ g ∈ rest, (mergeFlagStep r ex c u f).hasKey g = true :=
      fun g hg => mergeFlagStep_hasKey r ex c u f g (h g (List.mem_cons_of_mem f hg))
    rw [mergeFold_keys r ex c rest _ hrest, mergeFlagStep_keys r ex c u f hf]

/-- The merged value of a flag the accumulator already defines. -/
theorem mergeFold_find_flag (r : Bool) (ex : JObj) (c : MRecord) :
    ∀ (flags : List String) (u : JObj) (f : String), flags.Nodup → f ∈ flags →
      u.hasKey f = true →
      (flags.foldl (mergeFlagStep r ex c) u).find f =
        if (!r && JObj.hasKey ex f) = true then ex.find f else u.find f
  | [], _, _, _, hf, _ => absurd hf (List.not_mem_nil _)
  | g :: rest, u, f, hnd, hf, hu => by
    rw [List.foldl_cons]
    rcases List.mem_cons.mp hf with heq | hmem
    · subst heq
      have hnotin : f ∉ rest := (List.nodup_cons.mp hnd).1
      rw [mergeFold_find_not_mem r ex c rest _ f hnotin]
      unfold mergeFlagStep
      by_cases hcond : (!r && JObj.hasKey ex f) = true
      · rw [if_pos hcond, if_pos hcond, JObj.find_set_self,
          some_getD_of_hasKey ex f (Bool.and_elim_right hcond)]
      · rw [if_neg hcond, if_neg hcond, hu]
        simp
    · have hne : f ≠ g := by
        intro hh
        exact (List.nodup_cons.mp hnd).1 (hh ▸ hmem)
      rw [mergeFold_find_flag r ex c rest _ f (List.nodup_cons.mp hnd).2 hmem
          (mergeFlagStep_hasKey r ex c u g f hu),
        mergeFlagStep_find_ne r ex c u g f hne]

theorem flagNames_nodup : flagNames.Nodup := by decide

/-- Keys that are not capability flags (in particular `id`, `provider`,
`providerId`, `name`) keep their candidate values through the merge. -/
theorem mergeEntry_find_not_flag (r : Bool) (ex : JObj) (c : MRecord) (k : String)
    (h : k ∉ flagNames) :
    (mergeEntry r ex c).find k = (MRecord.toJObj c).find k :=
  mergeFold_find_not_mem r ex c flagNames c.toJObj k h

/-- The merged value of each of the six flags: the existing value when
refresh is off and the existing record defines the flag, the candidate's
classifier value otherwise. -/
theorem mergeEntry_find_flag (r : Bool) (ex : JObj) (c : MRecord) (flag : String)
    (h : flag ∈ flagNames) :
    (mergeEntry r ex c).find flag =
      if (!r && JObj.hasKey ex flag) = true then ex.find flag
      else (MRecord.toJObj c).find flag :=
  mergeFold_find_flag r ex c flagNames c.toJObj flag flagNames_nodup h
    (MRecord.toJObj_hasKey_flag c flag h)

theorem mergeEntry_keys (r : Bool) (ex : JObj) (c : MRecord) :
    (mergeEntry r ex c).keys = (MRecord.toJObj c).keys :=
  mergeFold_keys r ex c flagNames c.toJObj
    (fun f hf => MRecord.toJObj_hasKey_flag c f hf)

theorem toJObj_keys_nodup (c : MRecord) : (MRecord.toJObj c).keys.Nodup := by
  rw [MRecord.toJObj_keys]
  decide

/-- Re-merging a record that came out of the merge (or a fresh candidate)
with the same candidate and refresh off reproduces it exactly: the record
defines every flag, so every flag is copied from it, and the non-flag fields
already equal the candidate's. -/
theorem mergeEntry_self (ex : JObj) (c : MRecord) (u : JObj)
    (hu : u = mergeEntry false ex c ∨ u = MRecord.toJObj c) :
    mergeEntry false u c = u := by
  have hkeys : u.keys = (MRecord.toJObj c).keys := by
    rcases hu with h | h
    · rw [h, mergeEntry_keys]
    · rw [h]
  have hbase : ∀ k, k ∉ flagNames → u.find k = (MRecord.toJObj c).find k := by
    intro k hk
    rcases hu with h | h
    · rw [h, mergeEntry_find_not_flag false ex c k hk]
    · rw [h]
  apply JObj.ext_of_keys_of_find
  · rw [mergeEntry_keys, hkeys]
  · rw [mergeEntry_keys]
    exact toJObj_keys_nodup c
  · intro k hkmem
    rw [mergeEntry_keys, MRecord.toJObj_keys] at hkmem
    rcases List.mem_append.mp hkmem with hkb | hkf
    · have hknot : k ∉ flagNames := by
        fin_cases hkb <;> decide
      rw [mergeEntry_find_not_flag false u c k hknot]
      exact (hbase k hknot).symm
    · have huk : u.hasKey k = true := by
        rw [JObj.hasKey_iff_mem_keys, hkeys, MRecord.toJObj_keys]
        exact List.mem_append.mpr (Or.inr hkf)
      rw [mergeEntry_find_flag false u c k hkf]
      simp [huk]

/-! ### Lemmas about the managed-record map and the merge loop -/

theorem mapFind_mapInsert (mp : List (MKey × JObj)) (k k' : MKey) (v : JObj) :
    mapFind (mapInsert mp k v) k' = if k' = k then some v else mapFind mp k' := by
  induction mp with
  | nil =>
    by_cases h : k' = k
    · subst h; simp [mapInsert, mapFind]
    · have h2 : ¬ k = k' := fun hh => h hh.symm
      simp [mapInsert, mapFind, h, h2]
  | cons p rest ih =>
    by_cases hp : p.1 = k
    · by_cases h : k' = k
      · subst h; simp [mapInsert, mapFind, hp]
      · have h2 : ¬ k = k' := fun hh => h hh.symm
        have h3 : ¬ p.1 = k' := by rw [hp]; exact h2
        simp [mapInsert, mapFind, hp, h, h2, h3]
    · by_cases hq : p.1 = k'
      · have h4 : ¬ k' = k := by rw [← hq]; exact hp
        simp [mapInsert, mapFind, hp, hq, h4]
      · simp [mapInsert, mapFind, hp, hq, ih]

theorem mapFind_mapErase_ne (mp : List (MKey × JObj)) (k k' : MKey) (h : k' ≠ k) :
    mapFind (mapErase mp k) k' = mapFind mp k' := by
  induction mp with
  | nil => simp [mapErase, mapFind]
  | cons p rest ih =>
    obtain ⟨pk, pv⟩ := p
    have h2 : ¬ k = k' := fun hh => h hh.symm
    by_cases hp : pk = k
    · have h3 : ¬ pk = k' := by rw [hp]; exact h2
      simp [mapErase, mapFind, hp, h2, h3, ih]
    · by_cases hq : pk = k'
      · simp [mapErase, mapFind, hp, hq, h, h2]
      · simp [mapErase, mapFind, hp, hq, ih]

/-- With pairwise-distinct candidate keys the deletion at line 320 is
irrelevant, and the merge loop is a pointwise map over the candidates. -/
theorem mergeLoop_eq_map (r : Bool) :
    ∀ (F : List MRecord) (mp : List (MKey × JObj)), (F.map ckey).Nodup →
      mergeLoop r F mp = F.map (fun c =>
        match mapFind mp (ckey c) with
        | some existing => mergeEntry r existing c
        | none => c.toJObj)
  | [], _, _ => rfl
  | c :: rest, mp, hnd => by
    have hnd' : ckey c ∉ rest.map ckey ∧ (rest.map ckey).Nodup := by
      rw [List.map_cons, List.nodup_cons] at hnd
      exact hnd
    have hrest : (rest.map ckey).Nodup := hnd'.2
    cases hfind : mapFind mp (ckey c) with
    | some existing =>
      simp only [mergeLoop, hfind, List.map_cons]
      rw [mergeLoop_eq_map r rest _ hrest]
      congr 1
      apply List.map_congr_left
      intro c' hc'
      have hne : ckey c' ≠ ckey c := by
        intro hh
        exact hnd'.1 (hh ▸ List.mem_map_of_mem ckey hc')
      rw [mapFind_mapErase_ne mp (ckey c) (ckey c') hne]
    | none =>
      simp only [mergeLoop, hfind, List.map_cons]
      rw [mergeLoop_eq_map r rest _ hrest]

/-! ### Lemmas about the decorate-sort step -/

/-- The sort key as a total function (meaningful on records whose
`sortKey` succeeds). -/
def skey (o : JObj) : String × String :=
  match sortKey o with
  | .ok k => k
  | .error _ => ("", "")

theorem decorate_ok_iff (l : List JObj) (keyed : List ((String × String) × JObj)) :
    decorate l = .ok keyed ↔
      ((∀ o ∈ l, ∃ k, sortKey o = .ok k) ∧ keyed = l.map (fun o => (skey o, o))) := by
  induction l generalizing keyed with
  | nil => simp [decorate]
  | cons o rest ih =>
    cases hk : sortKey o with
    | error e =>
      simp only [decorate, hk]
      constructor
      · intro h; cases h
      · rintro ⟨hall, -⟩
        obtain ⟨k, hkk⟩ := hall o (List.mem_cons_self o rest)
        rw [hk] at hkk; cases hkk
    | ok k =>
      cases hrest : decorate rest with
      | error e =>
        simp only [decorate, hk, hrest]
        constructor
        · intro h; cases h
        · rintro ⟨hall, -⟩
          have : ∀ o' ∈ rest, ∃ k', sortKey o' = .ok k' :=
            fun o' ho' => hall o' (List.mem_cons_of_mem o ho')
          obtain ⟨tl, htl⟩ : ∃ tl, decorate rest = .ok tl := by
            rcases (ih (rest.map (fun o => (skey o, o)))).mpr ⟨this, rfl⟩ with h
            exact ⟨_, h⟩
          rw [hrest] at htl; cases htl
      | ok tl =>
        have hih := (ih tl).mp hrest
        simp only [decorate, hk, hrest, List.map_cons]
        constructor
        · intro h
          cases h
          refine ⟨?_, ?_⟩
          · intro o' ho'
            rcases List.mem_cons.mp ho' with he | hm
            · exact ⟨k, he ▸ hk⟩
            · exact hih.1 o' hm
          · have hsk : skey o = k := by simp [skey, hk]
            rw [hsk, ← hih.2]
        · rintro ⟨hall, heq⟩
          have hsk : skey o = k := by simp [skey, hk]
          rw [hsk] at heq
          rw [heq, hih.2]

theorem charListLT_irrefl : ∀ (a : List Char), charListLT a a = false
  | [] => rfl
  | c :: cs => by
    simp [charListLT, charListLT_irrefl cs]

theorem charListLT_trans : ∀ (a b c : List Char),
    charListLT a b = true → charListLT b c = true → charListLT a c = true
  | a, [], c, hab, _ => by cases a <;> simp [charListLT] at hab
  | [], b :: bs, c, _, hbc => by
    cases c with
    | nil => simp [charListLT] at hbc
    | cons c' cs => simp [charListLT]
  | a :: as, b :: bs, c, hab, hbc => by
    cases c with
    | nil => simp [charListLT] at hbc
    | cons c' cs =>
      simp only [charListLT, Bool.or_eq_true, Bool.and_eq_true, decide_eq_true_eq] at *
      rcases hab with hab | ⟨hab, hab'⟩
      · rcases hbc with hbc | ⟨hbc, hbc'⟩
        · exact Or.inl (Nat.lt_trans hab hbc)
        · exact Or.inl (hbc ▸ hab)
      · subst hab
        rcases hbc with hbc | ⟨hbc, hbc'⟩
        · exact Or.inl hbc
        · exact Or.inr ⟨hbc, charListLT_trans as bs cs hab' hbc'⟩

theorem charListLT_asymm : ∀ (a b : List Char),
    charListLT a b = true → charListLT b a = true → False
  | [], b, hab, hba => by
    cases b <;> simp [charListLT] at hab hba
  | a :: as, b, hab, hba => by
    cases b with
    | nil => simp [charListLT] at hab
    | cons b' bs =>
      simp only [charListLT, Bool.or_eq_true, Bool.and_eq_true, decide_eq_true_eq] at *
      rcases hab with hab | ⟨hab, hab'⟩
      · rcases hba with hba | ⟨hba, hba'⟩
        · exact Nat.lt_asymm hab hba
        · subst hba; exact Nat.lt_irrefl _ hab
      · subst hab
        rcases hba with hba | ⟨-, hba'⟩
        · exact Nat.lt_irrefl _ hba
        · exact charListLT_asymm as bs hab' hba'

theorem charListLT_trichotomy : ∀ (a b : List Char),
    charListLT a b = true ∨ a = b ∨ charListLT b a = true
  | [], [] => Or.inr (Or.inl rfl)
  | [], b :: bs => Or.inl (by simp [charListLT])
  | a :: as, [] => Or.inr (Or.inr (by simp [charListLT]))
  | a :: as, b :: bs => by
    rcases Nat.lt_trichotomy a.toNat b.toNat with h | h | h
    · exact Or.inl (by simp [charListLT, h])
    · have hab : a = b := Char.ext (UInt32.ext h)
      subst hab
      rcases charListLT_trichotomy as bs with h2 | h2 | h2
      · exact Or.inl (by simp [charListLT, h2])
      · exact Or.inr (Or.inl (by rw [h2]))
      · exact Or.inr (Or.inr (by simp [charListLT, h2]))
    · exact Or.inr (Or.inr (by simp [charListLT, h]))

theorem strLT_trans (a b c : String) (h1 : strLT a b = true) (h2 : strLT b c = true) :
    strLT a c = true :=
  charListLT_trans a.toList b.toList c.toList h1 h2

theorem strLT_asymm (a b : String) (h1 : strLT a b = true) (h2 : strLT b a = true) :
    False :=
  charListLT_asymm a.toList b.toList h1 h2

theorem strLT_irrefl (a : String) : strLT a a = false :=
  charListLT_irrefl a.toList

theorem strLT_trichotomy (a b : String) :
    strLT a b = true ∨ a = b ∨ strLT b a = true := by
  rcases charListLT_trichotomy a.toList b.toList with h | h | h
  · exact Or.inl h
  · refine Or.inr (Or.inl ?_)
    cases a; cases b
    simp only [String.toList] at h
    simp [h]
  · exact Or.inr (Or.inr h)

theorem keyLE_trans (a b c : String × String)
    (h1 : keyLE a b = true) (h2 : keyLE b c = true) : keyLE a c = true := by
  simp only [keyLE, Bool.or_eq_true, Bool.and_eq_true, decide_eq_true_eq] at *
  rcases h1 with h1 | ⟨h1e, h1le⟩
  · rcases h2 with h2 | ⟨h2e, h2le⟩
    · exact Or.inl (strLT_trans _ _ _ h1 h2)
    · exact Or.inl (h2e ▸ h1)
  · rcases h2 with h2 | ⟨h2e, h2le⟩
    · exact Or.inl (h1e ▸ h2)
    · refine Or.inr ⟨h1e.trans h2e, ?_⟩
      rcases h1le with h1le | h1le
      · rcases h2le with h2le | h2le
        · exact Or.inl (strLT_trans _ _ _ h1le h2le)
        · exact Or.inl (h2le ▸ h1le)
      · rw [h1le]
        exact h2le

theorem keyLE_total (a b : String × String) : (keyLE a b || keyLE b a) = true := by
  simp only [keyLE, Bool.or_eq_true, Bool.and_eq_true, decide_eq_true_eq]
  rcases strLT_trichotomy a.1 b.1 with h | h | h
  · exact Or.inl (Or.inl h)
  · rcases strLT_trichotomy a.2 b.2 with h2 | h2 | h2
    · exact Or.inl (Or.inr ⟨h, Or.inl h2⟩)
    · exact Or.inl (Or.inr ⟨h, Or.inr h2⟩)
    · exact Or.inr (Or.inr ⟨h.symm, Or.inl h2⟩)
  · exact Or.inr (Or.inl h)

instance : IsTrans ((String × String) × JObj) recLE :=
  ⟨fun a b c h1 h2 => keyLE_trans a.1 b.1 c.1 h1 h2⟩

instance : IsTotal ((String × String) × JObj) recLE :=
  ⟨fun a b => by
    have h := keyLE_total a.1 b.1
    rcases Bool.or_eq_true_iff.mp h with h1 | h1
    · exact Or.inl h1
    · exact Or.inr h1⟩

/-- Strict comparison of sort keys. -/
def keyLT (a b : String × String) : Prop :=
  strLT a.1 b.1 = true ∨ (a.1 = b.1 ∧ strLT a.2 b.2 = true)

theorem keyLT_of_keyLE_of_ne (a b : String × String)
    (h : keyLE a b = true) (hne : a ≠ b) : keyLT a b := by
  simp only [keyLE, Bool.or_eq_true, Bool.and_eq_true, decide_eq_true_eq] at h
  rcases h with h | ⟨he, hle⟩
  · exact Or.inl h
  · rcases hle with hle | hle
    · exact Or.inr ⟨he, hle⟩
    · exact absurd (Prod.ext he hle) hne

theorem keyLT_asymm (a b : String × String) (h1 : keyLT a b) (h2 : keyLT b a) : False := by
  rcases h1 with h1 | ⟨h1e, h1lt⟩ <;> rcases h2 with h2 | ⟨h2e, h2lt⟩
  · exact strLT_asymm _ _ h1 h2
  · rw [h2e] at h1
    rw [strLT_irrefl] at h1
    cases h1
  · rw [h1e] at h2
    rw [strLT_irrefl] at h2
    cases h2
  · exact strLT_asymm _ _ h1lt h2lt

/-- Two lists of key-decorated records with the same elements and
pairwise-distinct keys have the same stable sort: with no ties, the sorted
order is unique. -/
theorem insertionSort_eq_of_perm_of_nodup_keys
    (l₁ l₂ : List ((String × String) × JObj))
    (hp : l₁.Perm l₂) (hnd : (l₁.map Prod.fst).Nodup) :
    List.insertionSort recLE l₁ = List.insertionSort recLE l₂ := by
  have hperm1 := List.perm_insertionSort recLE l₁
  have hperm2 := List.perm_insertionSort recLE l₂
  have hsorted1 := List.sorted_insertionSort recLE l₁
  have hsorted2 := List.sorted_insertionSort recLE l₂
  have hnd2 : (l₂.map Prod.fst).Nodup := ((hp.map Prod.fst).nodup_iff).mp hnd
  have hstrict : ∀ (l : List ((String × String) × JObj)),
      l.Pairwise recLE → (l.map Prod.fst).Nodup →
      l.Pairwise (fun a b => keyLT a.1 b.1) := by
    intro l hle hnod
    have hne : l.Pairwise (fun a b => a.1 ≠ b.1) := List.pairwise_map.mp hnod
    exact (hle.and hne).imp (fun h => keyLT_of_keyLE_of_ne _ _ h.1 h.2)
  have hnds1 : ((List.insertionSort recLE l₁).map Prod.fst).Nodup :=
    ((hperm1.map Prod.fst).nodup_iff).mpr hnd
  have hnds2 : ((List.insertionSort recLE l₂).map Prod.fst).Nodup :=
    ((hperm2.map Prod.fst).nodup_iff).mpr hnd2
  haveI : IsAntisymm ((String × String) × JObj) (fun a b => keyLT a.1 b.1) :=
    ⟨fun a b h1 h2 => (keyLT_asymm a.1 b.1 h1 h2).elim⟩
  exact List.eq_of_perm_of_sorted (hperm1.trans (hp.trans hperm2.symm))
    (hstrict _ hsorted1 hnds1) (hstrict _ hsorted2 hnds2)

theorem sortStep_ok_iff (l : List JObj) (out : List JObj) :
    sortStep l = .ok out ↔
      ((∀ o ∈ l, ∃ k, sortKey o = .ok k)
        ∧ out = (List.insertionSort recLE
            (l.map (fun o => (skey o, o)))).map Prod.snd) := by
  unfold sortStep
  cases hd : decorate l with
  | error e =>
    constructor
    · intro h; cases h
    · rintro ⟨hall, -⟩
      have := (decorate_ok_iff l (l.map (fun o => (skey o, o)))).mpr ⟨hall, rfl⟩
      rw [hd] at this; cases this
  | ok keyed =>
    have hik := (decorate_ok_iff l keyed).mp hd
    constructor
    · intro h
      cases h
      exact ⟨hik.1, by rw [hik.2]⟩
    · rintro ⟨hall, heq⟩
      rw [heq, hik.2]

/-- The sink of the sort: a permutation of its input. -/
theorem sortStep_perm (l : List JObj) (out : List JObj) (h : sortStep l = .ok out) :
    out.Perm l := by
  obtain ⟨-, heq⟩ := (sortStep_ok_iff l out).mp h
  rw [heq]
  have h1 := (List.perm_insertionSort recLE
    (l.map (fun o => (skey o, o)))).map Prod.snd
  have h2 : (l.map (fun o => (skey o, o))).map Prod.snd = l := by
    rw [List.map_map]
    have hcomp : (Prod.snd ∘ fun o : JObj => (skey o, o)) = id := rfl
    rw [hcomp, List.map_id]
  rw [h2] at h1
  exact h1

/-! ### Lemmas about loading and partitioning -/

/-- A catalog entry that the partitioning comprehensions accept without
raising: a dict defining string `providerId` and `id`.  (String values are
also what the final sort needs to compare keys without a `TypeError`.) -/
def wfRec (v : JValue) : Prop :=
  ∃ kvs p i, v = .obj kvs
    ∧ JObj.find kvs "providerId" = some (.str p)
    ∧ JObj.find kvs "id" = some (.str i)

/-- The uniqueness key of a record, as the script reads it. -/
def recKey (o : JObj) : Option JValue × Option JValue :=
  (JObj.find o "providerId", JObj.find o "id")

/-- `m["providerId"] in managed_provider_ids` at the record level. -/
def isManagedRec (o : JObj) : Bool :=
  match JObj.find o "providerId" with
  | some pv => isManagedPid pv
  | none => false

/-- The selection performed by the `other_provider_models` comprehension. -/
def otherSel : JValue → Option JObj
  | .obj kvs =>
    (match JObj.find kvs "providerId" with
     | some pv => if isManagedPid pv then none else some kvs
     | none => none)
  | _ => none

theorem loadCurrent_docOf (l : List JObj) :
    loadCurrent (docOf l) = .ok (l.map .obj) := by
  simp [loadCurrent, docOf, JObj.find]

theorem buildOther_eq : ∀ (l : List JValue) (O : List JObj),
    buildOther l = .ok O → O = l.filterMap otherSel
  | [], O, h => by cases h; rfl
  | v :: rest, O, h => by
    cases v with
    | obj kvs =>
      simp only [buildOther] at h
      cases hpv : JObj.find kvs "providerId" with
      | none => rw [hpv] at h; cases h
      | some pv =>
        rw [hpv] at h
        cases hrest : buildOther rest with
        | error e => rw [hrest] at h; cases h
        | ok tl =>
          rw [hrest] at h
          cases h
          by_cases hm : isManagedPid pv = true
          · simp [List.filterMap_cons, otherSel, hpv, hm, buildOther_eq rest tl hrest]
          · simp only [Bool.not_eq_true] at hm
            simp [List.filterMap_cons, otherSel, hpv, hm, buildOther_eq rest tl hrest]
    | null => simp [buildOther] at h
    | bool b => simp [buildOther] at h
    | num n => simp [buildOther] at h
    | str s => simp [buildOther] at h
    | arr xs => simp [buildOther] at h

theorem buildOther_ok_of_wf : ∀ (l : List JValue), (∀ v ∈ l, wfRec v) →
    buildOther l = .ok (l.filterMap otherSel)
  | [], _ => rfl
  | v :: rest, h => by
    obtain ⟨kvs, p, i, hv, hpid, -⟩ := h v (List.mem_cons_self v rest)
    subst hv
    have hrest := buildOther_ok_of_wf rest (fun w hw => h w (List.mem_cons_of_mem _ hw))
    by_cases hm : isManagedPid (.str p) = true
    · simp [buildOther, hpid, hrest, List.filterMap_cons, otherSel, hm]
    · simp only [Bool.not_eq_true] at hm
      simp [buildOther, hpid, hrest, List.filterMap_cons, otherSel, hm]

/-- Members selected as "other" records come from the catalog and are not
managed. -/
theorem otherSel_mem_prop (l : List JValue) (o : JObj)
    (ho : o ∈ l.filterMap otherSel) :
    JValue.obj o ∈ l ∧ isManagedRec o = false := by
  obtain ⟨v, hv, hsel⟩ := List.mem_filterMap.mp ho
  cases v with
  | obj kvs =>
    simp only [otherSel] at hsel
    cases hpv : JObj.find kvs "providerId" with
    | none => rw [hpv] at hsel; cases hsel
    | some pv =>
      rw [hpv] at hsel
      by_cases hm : isManagedPid pv = true
      · simp [hm] at hsel
      · simp only [Bool.not_eq_true] at hm
        simp [hm] at hsel
        subst hsel
        refine ⟨hv, ?_⟩
        simp [isManagedRec, hpv, hm]
  | null => simp [otherSel] at hsel
  | bool b => simp [otherSel] at hsel
  | num n => simp [otherSel] at hsel
  | str s => simp [otherSel] at hsel
  | arr xs => simp [otherSel] at hsel

/-! ### Lemmas about the managed map construction -/

theorem buildMapStep_wf (mp0 : List (MKey × JObj)) (kvs : JObj) (p i : String)
    (hpid : JObj.find kvs "providerId" = some (.str p))
    (hid : JObj.find kvs "id" = some (.str i)) :
    buildMapStep mp0 (.obj kvs) =
      .ok (if isManagedPid (.str p) then mapInsert mp0 (p, .str i) kvs else mp0) := by
  by_cases hm : isManagedPid (.str p) = true
  · simp [buildMapStep, hpid, hid, hm, hashable]
  · simp only [Bool.not_eq_true] at hm
    simp [buildMapStep, hpid, hid, hm, hashable]

theorem buildMap_ok_of_wf : ∀ (l : List JValue) (mp0 : List (MKey × JObj)),
    (∀ v ∈ l, wfRec v) → ∃ mp, buildMap l mp0 = .ok mp
  | [], mp0, _ => ⟨mp0, rfl⟩
  | v :: rest, mp0, h => by
    obtain ⟨kvs, p, i, hv, hpid, hid⟩ := h v (List.mem_cons_self v rest)
    subst hv
    obtain ⟨mp, hmp⟩ := buildMap_ok_of_wf rest
      (if isManagedPid (.str p) then mapInsert mp0 (p, .str i) kvs else mp0)
      (fun w hw => h w (List.mem_cons_of_mem _ hw))
    exact ⟨mp, by simp [buildMap, buildMapStep_wf mp0 kvs p i hpid hid, hmp]⟩

theorem buildMapStep_ok_inv (mp0 mp1 : List (MKey × JObj)) (m : JValue)
    (h : buildMapStep mp0 m = .ok mp1) :
    mp1 = mp0 ∨ ∃ kvs p idv, m = .obj kvs
      ∧ JObj.find kvs "providerId" = some (.str p)
      ∧ JObj.find kvs "id" = some idv
      ∧ isManagedPid (.str p) = true
      ∧ mp1 = mapInsert mp0 (p, idv) kvs := by
  cases m with
  | obj kvs =>
    simp only [buildMapStep] at h
    cases hpv : JObj.find kvs "providerId" with
    | none => rw [hpv] at h; cases h
    | some pv =>
      simp only [hpv] at h
      by_cases hm : isManagedPid pv = true
      · rw [if_pos hm] at h
        cases hid : JObj.find kvs "id" with
        | none => rw [hid] at h; cases h
        | some idv =>
          simp only [hid] at h
          by_cases hh : hashable idv = true
          · rw [if_pos hh] at h
            cases pv with
            | str p =>
              cases h
              exact Or.inr ⟨kvs, p, idv, rfl, hpv, hid, hm, rfl⟩
            | null => simp [isManagedPid, managed_provider_ids] at hm
            | bool b => simp [isManagedPid, managed_provider_ids] at hm
            | num n => simp [isManagedPid, managed_provider_ids] at hm
            | arr xs => simp [isManagedPid, managed_provider_ids] at hm
            | obj kvs2 => simp [isManagedPid, managed_provider_ids] at hm
          · simp only [Bool.not_eq_true] at hh
            rw [hh] at h
            cases h
      · simp only [Bool.not_eq_true] at hm
        rw [hm] at h
        cases h
        exact Or.inl rfl
  | null => simp [buildMapStep] at h
  | bool b => simp [buildMapStep] at h
  | num n => simp [buildMapStep] at h
  | str s => simp [buildMapStep] at h
  | arr xs => simp [buildMapStep] at h

theorem buildMap_find_mem : ∀ (l : List JValue) (mp0 mp : List (MKey × JObj)),
    buildMap l mp0 = .ok mp → ∀ (k : MKey) (v : JObj), mapFind mp k = some v →
      mapFind mp0 k = some v
        ∨ (JValue.obj v ∈ l ∧ JObj.find v "providerId" = some (.str k.1)
            ∧ JObj.find v "id" = some k.2 ∧ isManagedPid (.str k.1) = true)
  | [], mp0, mp, h, k, v, hf => by cases h; exact Or.inl hf
  | m :: rest, mp0, mp, h, k, v, hf => by
    simp only [buildMap] at h
    cases hstep : buildMapStep mp0 m with
    | error e => rw [hstep] at h; cases h
    | ok mp1 =>
      rw [hstep] at h
      rcases buildMap_find_mem rest mp1 mp h k v hf with h1 | h1
      · rcases buildMapStep_ok_inv mp0 mp1 m hstep with heq | ⟨kvs, p, idv, hm, hpid, hid, hmng, hins⟩
        · rw [heq] at h1; exact Or.inl h1
        · rw [hins, mapFind_mapInsert] at h1
          by_cases hk : k = (p, idv)
          · rw [if_pos hk] at h1
            cases h1
            subst hm
            subst hk
            exact Or.inr ⟨List.mem_cons_self _ _, hpid, hid, hmng⟩
          · rw [if_neg hk] at h1
            exact Or.inl h1
      · exact Or.inr ⟨List.mem_cons_of_mem m h1.1, h1.2⟩

theorem buildMap_find_mono : ∀ (l : List JValue) (mp0 mp : List (MKey × JObj)),
    buildMap l mp0 = .ok mp → ∀ (k : MKey),
      (mapFind mp0 k).isSome = true → (mapFind mp k).isSome = true
  | [], mp0, mp, h, k, hs => by cases h; exact hs
  | m :: rest, mp0, mp, h, k, hs => by
    simp only [buildMap] at h
    cases hstep : buildMapStep mp0 m with
    | error e => rw [hstep] at h; cases h
    | ok mp1 =>
      rw [hstep] at h
      apply buildMap_find_mono rest mp1 mp h k
      rcases buildMapStep_ok_inv mp0 mp1 m hstep with heq | ⟨kvs, p, idv, hm, hpid, hid, hmng, hins⟩
      · rw [heq]; exact hs
      · rw [hins, mapFind_mapInsert]
        by_cases hk : k = (p, idv)
        · rw [if_pos hk]; rfl
        · rw [if_neg hk]; exact hs

theorem buildMap_find_isSome_of_mem : ∀ (l : List JValue) (mp0 mp : List (MKey × JObj)),
    buildMap l mp0 = .ok mp →
    ∀ (kvs : JObj) (p : String) (idv : JValue), JValue.obj kvs ∈ l →
      JObj.find kvs "providerId" = some (.str p) → JObj.find kvs "id" = some idv →
      isManagedPid (.str p) = true →
      (mapFind mp (p, idv)).isSome = true
  | [], _, _, _, _, _, _, hmem, _, _, _ => absurd hmem (List.not_mem_nil _)
  | m :: rest, mp0, mp, h, kvs, p, idv, hmem, hpid, hid, hmng => by
    simp only [buildMap] at h
    cases hstep : buildMapStep mp0 m with
    | error e => rw [hstep] at h; cases h
    | ok mp1 =>
      rw [hstep] at h
      rcases List.mem_cons.mp hmem with heq | hmem'
    
      · subst heq
        apply buildMap_find_mono rest mp1 mp h
        simp only [buildMapStep, hpid, hmng, if_pos, hid] at hstep
        have hh : hashable idv = true := by
          by_contra hc
          simp only [Bool.not_eq_true] at hc
          rw [hc] at hstep
          cases hstep
        rw [hh] at hstep
        simp only at hstep
        cases hstep
        rw [mapFind_mapInsert, if_pos rfl]
        rfl
      · exact buildMap_find_isSome_of_mem rest mp1 mp h kvs p idv hmem' hpid hid hmng

/-! ### Shape of the merged managed records -/

theorem mergeLoop_mem (r : Bool) : ∀ (F : List MRecord) (mp : List (MKey × JObj)) (x : JObj),
    x ∈ mergeLoop r F mp →
      ∃ c ∈ F, (∃ ex, x = mergeEntry r ex c) ∨ x = MRecord.toJObj c
  | [], _, _, hx => absurd hx (List.not_mem_nil _)
  | c :: rest, mp, x, hx => by
    simp only [mergeLoop] at hx
    cases hfind : mapFind mp (ckey c) with
    | some existing =>
      rw [hfind] at hx
      rcases List.mem_cons.mp hx with heq | hmem
      · exact ⟨c, List.mem_cons_self c rest, Or.inl ⟨existing, heq⟩⟩
      · obtain ⟨c', hc', hshape⟩ := mergeLoop_mem r rest _ x hmem
        exact ⟨c', List.mem_cons_of_mem c hc', hshape⟩
    | none =>
      rw [hfind] at hx
      rcases List.mem_cons.mp hx with heq | hmem
      · exact ⟨c, List.mem_cons_self c rest, Or.inr heq⟩
      · obtain ⟨c', hc', hshape⟩ := mergeLoop_mem r rest _ x hmem
        exact ⟨c', List.mem_cons_of_mem c hc', hshape⟩

theorem base_not_flag_id : "id" ∉ flagNames := by decide
theorem base_not_flag_provider : "provider" ∉ flagNames := by decide
theorem base_not_flag_providerId : "providerId" ∉ flagNames := by decide
theorem base_not_flag_name : "name" ∉ flagNames := by decide

/-- Every record produced by the merge loop for candidate `c` carries `c`'s
identifying fields and the candidate's key sequence. -/
theorem mergedRec_shape (r : Bool) (c : MRecord) (x : JObj)
    (hx : (∃ ex, x = mergeEntry r ex c) ∨ x = MRecord.toJObj c) :
    JObj.find x "providerId" = some (.str c.providerId)
      ∧ JObj.find x "id" = some (.str c.id)
      ∧ x.keys = (MRecord.toJObj c).keys := by
  obtain ⟨hid, hprov, hpid, hname⟩ := MRecord.toJObj_find_base c
  rcases hx with ⟨ex, hx⟩ | hx
  · subst hx
    exact ⟨(mergeEntry_find_not_flag r ex c _ base_not_flag_providerId).trans hpid,
      (mergeEntry_find_not_flag r ex c _ base_not_flag_id).trans hid,
      mergeEntry_keys r ex c⟩
  · subst hx
    exact ⟨hpid, hid, rfl⟩

theorem probeRecord_cases (pr : String → Bool) (y : JObj) :
    probeRecord pr y = y ∨ probeRecord pr y = y.set "multiModal" (.bool true) := by
  unfold probeRecord
  dsimp only
  repeat' split
  all_goals first
    | exact Or.inl rfl
    | exact Or.inr rfl

theorem probeStep_mem (en : Bool) (pr : String → Bool) (L : List JObj) (x : JObj)
    (hx : x ∈ probeStep en pr L) :
    ∃ y ∈ L, x = y ∨ x = y.set "multiModal" (.bool true) := by
  unfold probeStep at hx
  split at hx
  · obtain ⟨y, hy, hxy⟩ := List.mem_map.mp hx
    rcases probeRecord_cases pr y with hc | hc
    · exact ⟨y, hy, Or.inl (hxy.symm.trans hc)⟩
    · exact ⟨y, hy, Or.inr (hxy.symm.trans hc)⟩
  · exact ⟨x, hx, Or.inl rfl⟩

theorem multiModal_mem_flagNames : "multiModal" ∈ flagNames := by decide

/-- Shape of every record in the managed part of the output (after the merge
loop and the optional probe pass): it belongs to some fetched candidate and
keeps the candidate's identity fields and key sequence. -/
theorem managedOut_shape (r en : Bool) (pr : String → Bool) (F : List MRecord)
    (mp : List (MKey × JObj)) (x : JObj)
    (hx : x ∈ probeStep en pr (mergeLoop r F mp)) :
    ∃ c ∈ F, JObj.find x "providerId" = some (.str c.providerId)
      ∧ JObj.find x "id" = some (.str c.id)
      ∧ x.keys = (MRecord.toJObj c).keys := by
  obtain ⟨y, hy, hxy⟩ := probeStep_mem en pr _ x hx
  obtain ⟨c, hc, hshape⟩ := mergeLoop_mem r F mp y hy
  obtain ⟨hpid, hid, hkeys⟩ := mergedRec_shape r c y hshape
  rcases hxy with hxy | hxy
  · exact ⟨c, hc, hxy ▸ hpid, hxy ▸ hid, hxy ▸ hkeys⟩
  · subst hxy
    have hMM : y.hasKey "multiModal" = true := by
      rw [JObj.hasKey_iff_mem_keys, hkeys, MRecord.toJObj_keys]
      exact List.mem_append.mpr (Or.inr multiModal_mem_flagNames)
    refine ⟨c, hc, ?_, ?_, ?_⟩
    · rw [JObj.find_set_ne y "multiModal" "providerId" _ (by decide)]
      exact hpid
    · rw [JObj.find_set_ne y "multiModal" "id" _ (by decide)]
      exact hid
    · rw [JObj.keys_set_of_hasKey y "multiModal" _ hMM]
      exact hkeys

/-- Managed output records sort without error, under the candidate's key. -/
theorem managedOut_sortKey (c : MRecord) (x : JObj)
    (hpid : JObj.find x "providerId" = some (.str c.providerId))
    (hid : JObj.find x "id" = some (.str c.id)) :
    sortKey x = .ok (c.providerId, c.id) := by
  simp [sortKey, hpid, hid]

/-- A well-formed other record sorts without error. -/
theorem wf_sortKey (o : JObj) (p i : String)
    (hpid : JObj.find o "providerId" = some (.str p))
    (hid : JObj.find o "id" = some (.str i)) :
    sortKey o = .ok (p, i) := by
  simp [sortKey, hpid, hid]

/-- Each record in the output of the merge loop defines all six flags. -/
theorem managedOut_flags (r en : Bool) (pr : String → Bool) (F : List MRecord)
    (mp : List (MKey × JObj)) (x : JObj)
    (hx : x ∈ probeStep en pr (mergeLoop r F mp)) (f : String) (hf : f ∈ flagNames) :
    x.hasKey f = true := by
  obtain ⟨c, -, -, -, hkeys⟩ := managedOut_shape r en pr F mp x hx
  rw [JObj.hasKey_iff_mem_keys, hkeys, MRecord.toJObj_keys]
  exact List.mem_append.mpr (Or.inr hf)

/-! ### Run-level decomposition -/

theorem runMain_ok_elim (doc : JValue) (F : List MRecord) (r en : Bool)
    (pr : String → Bool) (out : List JObj) (h : runMain doc F r en pr = .ok out) :
    ∃ current mp others,
      loadCurrent doc = .ok current
        ∧ buildMap current [] = .ok mp
        ∧ buildOther current = .ok others
        ∧ sortStep (probeStep en pr (mergeLoop r F mp) ++ others) = .ok out := by
  unfold runMain at h
  cases hload : loadCurrent doc with
  | error e => rw [hload] at h; cases h
  | ok current =>
    simp only [hload] at h
    cases hmp : buildMap current [] with
    | error e => rw [hmp] at h; cases h
    | ok mp =>
      simp only [hmp] at h
      cases hoth : buildOther current with
      | error e => rw [hoth] at h; cases h
      | ok others =>
        simp only [hoth] at h
        exact ⟨current, mp, others, rfl, hmp, hoth, h⟩

/-- The output of the sort is sorted by the (total) key function. -/
theorem sortStep_sorted (l : List JObj) (out : List JObj) (h : sortStep l = .ok out) :
    out.Pairwise (fun a b => keyLE (skey a) (skey b) = true) := by
  obtain ⟨-, heq⟩ := (sortStep_ok_iff l out).mp h
  subst heq
  have hsorted := List.sorted_insertionSort recLE (l.map (fun o => (skey o, o)))
  have hfst : ∀ x ∈ List.insertionSort recLE
      (l.map (fun o => (skey o, o))), x.1 = skey x.2 := by
    intro x hx
    have hx' : x ∈ l.map (fun o => (skey o, o)) :=
      (List.perm_insertionSort recLE _).subset hx
    obtain ⟨o, -, ho⟩ := List.mem_map.mp hx'
    rw [← ho]
  rw [List.pairwise_map]
  refine hsorted.imp_of_mem ?_
  intro a b ha hb hle
  rw [← hfst a ha, ← hfst b hb]
  exact hle

/-- Key facts for every record of a successful run's output. -/
theorem sortStep_skey (l : List JObj) (out : List JObj) (h : sortStep l = .ok out)
    (o : JObj) (ho : o ∈ out) : ∃ k, sortKey o = .ok k := by
  obtain ⟨hall, -⟩ := (sortStep_ok_iff l out).mp h
  exact hall o ((sortStep_perm l out h).subset ho)

/-! ### Small bridging lemmas -/

theorem probeStep_false (pr : String → Bool) (l : List JObj) :
    probeStep false pr l = l := rfl

theorem sortKey_ok_inv (o : JObj) (k : String × String) (h : sortKey o = .ok k) :
    JObj.find o "providerId" = some (.str k.1) ∧ JObj.find o "id" = some (.str k.2) := by
  unfold sortKey at h
  cases h1 : JObj.find o "providerId" with
  | none => rw [h1] at h; cases h
  | some pv =>
    rw [h1] at h
    cases h2 : JObj.find o "id" with
    | none =>
      rw [h2] at h
      cases pv <;> simp_all
    | some idv =>
      rw [h2] at h
      cases pv <;> cases idv <;> (try (cases h)) <;> simp_all

theorem isManagedPid_str (s : String) :
    isManagedPid (.str s) = true ↔ s ∈ managed_provider_ids := by
  simp [isManagedPid, List.any_eq_true]

/-- Every record in the managed part of the output is managed. -/
theorem managedOut_isManaged (r en : Bool) (pr : String → Bool) (F : List MRecord)
    (mp : List (MKey × JObj)) (x : JObj)
    (hx : x ∈ probeStep en pr (mergeLoop r F mp))
    (hpid : ∀ c ∈ F, c.providerId ∈ managed_provider_ids) :
    isManagedRec x = true := by
  obtain ⟨c, hc, hfp, -, -⟩ := managedOut_shape r en pr F mp x hx
  simp only [isManagedRec, hfp]
  exact (isManagedPid_str c.providerId).mpr (hpid c hc)

theorem filter_managed_split (U O : List JObj)
    (hU : ∀ x ∈ U, isManagedRec x = true) (hO : ∀ y ∈ O, isManagedRec y = false) :
    (U ++ O).filter (fun o => !(isManagedRec o)) = O := by
  rw [List.filter_append]
  have h1 : U.filter (fun o => !(isManagedRec o)) = [] := by
    rw [List.filter_eq_nil_iff]
    intro a ha
    rw [hU a ha]
    simp
  have h2 : O.filter (fun o => !(isManagedRec o)) = O := by
    rw [List.filter_eq_self]
    intro a ha
    rw [hO a ha]
    simp
  rw [h1, h2, List.nil_append]

theorem filterMap_otherSel_map_obj : ∀ (l : List JObj),
    (∀ o ∈ l, (JObj.find o "providerId").isSome = true) →
    (l.map .obj).filterMap otherSel = l.filter (fun o => !(isManagedRec o))
  | [], _ => rfl
  | o :: rest, h => by
    have hpid := h o (List.mem_cons_self o rest)
    have hrest := filterMap_otherSel_map_obj rest (fun w hw => h w (List.mem_cons_of_mem _ hw))
    cases hf : JObj.find o "providerId" with
    | none => rw [hf] at hpid; cases hpid
    | some pv =>
      by_cases hm : isManagedPid pv = true
      · simp [List.map_cons, List.filterMap_cons, otherSel, hf, hm, List.filter_cons,
          isManagedRec, hrest]
      · simp only [Bool.not_eq_true] at hm
        simp [List.map_cons, List.filterMap_cons, otherSel, hf, hm, List.filter_cons,
          isManagedRec, hrest]

theorem forall2_exists_left {α β : Type} {rel : α → β → Prop} :
    ∀ {F : List α} {U : List β}, List.Forall₂ rel F U → ∀ b ∈ U, ∃ a ∈ F, rel a b
  | _, _, List.Forall₂.nil, b, hb => absurd hb (List.not_mem_nil b)
  | _, _, List.Forall₂.cons hab hrest, b, hb => by
    rcases List.mem_cons.mp hb with heq | hmem
    · exact ⟨_, List.mem_cons_self _ _, heq ▸ hab⟩
    · obtain ⟨a, ha, hr⟩ := forall2_exists_left hrest b hmem
      exact ⟨a, List.mem_cons_of_mem _ ha, hr⟩

/-- Transfer a pairwise property along an elementwise relation. -/
theorem pairwise_of_forall2 {α β : Type} {rel : α → β → Prop}
    {P : α → α → Prop} {Q : β → β → Prop} :
    ∀ {F : List α} {U : List β}, List.Forall₂ rel F U → F.Pairwise P →
      (∀ a a' b b', rel a b → rel a' b' → P a a' → Q b b') → U.Pairwise Q
  | _, _, List.Forall₂.nil, _, _ => List.Pairwise.nil
  | _, _, List.Forall₂.cons hab hrest, hp, himp => by
    rcases List.pairwise_cons.mp hp with ⟨hhead, htail⟩
    refine List.Pairwise.cons ?_ (pairwise_of_forall2 hrest htail himp)
    intro b' hb'
    obtain ⟨a', ha', hrel'⟩ := forall2_exists_left hrest b' hb'
    exact himp _ _ _ _ hab hrel' (hhead a' ha')

theorem mergeLoop_forall2 (r : Bool) : ∀ (F : List MRecord) (mp : List (MKey × JObj)),
    List.Forall₂ (fun c x => (∃ ex, x = mergeEntry r ex c) ∨ x = MRecord.toJObj c)
      F (mergeLoop r F mp)
  | [], _ => List.Forall₂.nil
  | c :: rest, mp => by
    simp only [mergeLoop]
    cases mapFind mp (ckey c) with
    | some existing =>
      exact List.Forall₂.cons (Or.inl ⟨existing, rfl⟩) (mergeLoop_forall2 r rest _)
    | none =>
      exact List.Forall₂.cons (Or.inr rfl) (mergeLoop_forall2 r rest _)

/-- The managed output is index-aligned with the fetched candidates and
keeps each candidate's key fields. -/
theorem managedOut_forall2 (r en : Bool) (pr : String → Bool) (F : List MRecord)
    (mp : List (MKey × JObj)) :
    List.Forall₂ (fun c x => JObj.find x "providerId" = some (.str c.providerId)
        ∧ JObj.find x "id" = some (.str c.id))
      F (probeStep en pr (mergeLoop r F mp)) := by
  have hbase : List.Forall₂ (fun c x => JObj.find x "providerId" = some (.str c.providerId)
      ∧ JObj.find x "id" = some (.str c.id)) F (mergeLoop r F mp) :=
    (mergeLoop_forall2 r F mp).imp (fun {c x} hx => by
      obtain ⟨h1, h2, -⟩ := mergedRec_shape r c x hx
      exact ⟨h1, h2⟩)
  unfold probeStep
  split
  · rw [List.forall₂_map_right_iff]
    refine hbase.imp (fun {c y} hy => ?_)
    rcases probeRecord_cases pr y with hc | hc
    · rw [hc]; exact hy
    · rw [hc]
      exact ⟨(JObj.find_set_ne y "multiModal" "providerId" _ (by decide)).trans hy.1,
        (JObj.find_set_ne y "multiModal" "id" _ (by decide)).trans hy.2⟩
  · exact hbase

/-! ### Claims -/

/-- **C1**: for every fetched candidate merged against an existing managed
record, the merged record starts from the fresh candidate — its `id`,
`provider`, `providerId` and `name` are the candidate's — and each of the six
capability flags equals the existing record's value when refresh mode is not
active and the existing record defines the flag, and otherwise equals the
classifier-derived value already present on the candidate (the flag value of
`schema_entry`). -/
theorem C1_merge_flag_semantics (refresh : Bool) (ex : JObj) (c : MRecord)
    (flag : String) (hf : flag ∈ flagNames) :
    ((mergeEntry refresh ex c).find "id" = some (.str c.id)
      ∧ (mergeEntry refresh ex c).find "provider" = some (.str c.provider)
      ∧ (mergeEntry refresh ex c).find "providerId" = some (.str c.providerId)
      ∧ (mergeEntry refresh ex c).find "name" = some (.str c.name))
    ∧ (mergeEntry refresh ex c).find flag =
        (if refresh = false ∧ JObj.hasKey ex flag = true then JObj.find ex flag
         else (MRecord.toJObj c).find flag) := by
  obtain ⟨hid, hprov, hpid, hname⟩ := MRecord.toJObj_find_base c
  refine ⟨⟨(mergeEntry_find_not_flag refresh ex c _ base_not_flag_id).trans hid,
    (mergeEntry_find_not_flag refresh ex c _ base_not_flag_provider).trans hprov,
    (mergeEntry_find_not_flag refresh ex c _ base_not_flag_providerId).trans hpid,
    (mergeEntry_find_not_flag refresh ex c _ base_not_flag_name).trans hname⟩, ?_⟩
  rw [mergeEntry_find_flag refresh ex c flag hf]
  cases refresh with
  | false =>
    by_cases hk : JObj.hasKey ex flag = true
    · simp [hk]
    · simp only [Bool.not_eq_true] at hk
      simp [hk]
  | true => simp

def C1ex : JObj := [("multiModal", .bool false)]

def C1c : MRecord :=
  { id := "gpt-4o", provider := "OpenAI", providerId := "openai", name := "GPT 4O"
    caps := { multiModal := true, canSearch := false, canGenerateImages := false
              isAdvancedReasoner := true, canAccessInternet := false
              supportsReasoning := true } }

theorem C1_merge_flag_semantics_witness :
    ("multiModal" ∈ flagNames)
      ∧ (((mergeEntry false C1ex C1c).find "id" = some (.str C1c.id)
          ∧ (mergeEntry false C1ex C1c).find "provider" = some (.str C1c.provider)
          ∧ (mergeEntry false C1ex C1c).find "providerId" = some (.str C1c.providerId)
          ∧ (mergeEntry false C1ex C1c).find "name" = some (.str C1c.name))
        ∧ (mergeEntry false C1ex C1c).find "multiModal" =
            (if (false : Bool) = false ∧ JObj.hasKey C1ex "multiModal" = true
             then JObj.find C1ex "multiModal"
             else (MRecord.toJObj C1c).find "multiModal")) :=
  ⟨by decide, C1_merge_flag_semantics false C1ex C1c "multiModal" (by decide)⟩

/-- **C2** (amended): the normalization of lines 148-149 is applied
unconditionally at the end of the classifier, so for every classifier
result — and hence for every record whose flags come from the classifier,
in particular every newly discovered model — reasoning-support `false`
forces advanced-reasoning `false`.  The post-condition does **not** hold
for records whose flags were preserved from the prior catalog (see the
counterexample). -/
theorem C2_classifier_normalization (modelId displayName providerShortId : String)
    (apiData : Option JObj)
    (h : (apply_heuristics_for_new_model modelId displayName providerShortId
        apiData).supportsReasoning = false) :
    (apply_heuristics_for_new_model modelId displayName providerShortId
        apiData).isAdvancedReasoner = false := by
  unfold apply_heuristics_for_new_model normalizeCaps at h ⊢
  by_cases hsr : (rawHeuristics modelId displayName providerShortId
      apiData).supportsReasoning = true
  · rw [if_pos hsr] at h
    rw [hsr] at h
    cases h
  · rw [if_neg hsr]

theorem C2_classifier_normalization_witness :
    (apply_heuristics_for_new_model "imagen-3" "Imagen 3" "google" none).supportsReasoning
        = false
      ∧ (apply_heuristics_for_new_model "imagen-3" "Imagen 3" "google" none).isAdvancedReasoner
        = false :=
  ⟨by decide, C2_classifier_normalization "imagen-3" "Imagen 3" "google" none (by decide)⟩

/-- Prior catalog for the C2 counterexample: a managed record hand-edited to
`supportsReasoning = false` together with `isAdvancedReasoner = true`. -/
def C2doc : JValue :=
  .obj [("models", .arr [.obj [("providerId", .str "openai"), ("id", .str "m"),
    ("supportsReasoning", .bool false), ("isAdvancedReasoner", .bool true)]])]

def C2fetched : List MRecord :=
  fetch_and_transform_models "OpenAI" "openai" (.ok [.obj [("id", .str "m")]])

/-- **C2** counterexample: with refresh disabled, the merge preserves the
prior record's flags verbatim, so the final output contains a record with
`supportsReasoning = false` and `isAdvancedReasoner = true` — the
normalization is *not* applied to merged records whose flags were preserved
from the prior catalog. -/
theorem C2_counterexample :
    (runMain C2doc C2fetched false false (fun _ => false)).map
      (fun out => out.any (fun o =>
        decide (JObj.find o "supportsReasoning" = some (.bool false))
          && decide (JObj.find o "isAdvancedReasoner" = some (.bool true))))
      = .ok true := by decide

theorem transformLoop_append_error (pn pid : String) :
    ∀ (good : List JValue) (bad : JValue) (rest : List JValue) (e : PyErr),
      transformItem pn pid bad = .error e →
      transformLoop pn pid (good ++ bad :: rest) = transformLoop pn pid good
  | [], bad, rest, e, h => by simp [transformLoop, h]
  | g :: good', bad, rest, e, h => by
    simp only [List.cons_append, transformLoop, List.append_eq]
    cases transformItem pn pid g with
    | ok rec₁ => rw [transformLoop_append_error pn pid good' bad rest e h]
    | error _ => rfl

/-- **C3** (amended): a failure of the provider fetch itself yields the
empty list, but an exception raised while *transforming* a descriptor only
stops the loop: the step returns exactly the candidates transformed before
the failing descriptor — a possibly non-empty partial list — and descriptors
after the failing one contribute nothing.  (The run always continues:
`fetch_and_transform_models` is total.) -/
theorem C3_fetch_error_semantics (pn pid : String) (good : List JValue)
    (bad : JValue) (rest : List JValue) (e e' : PyErr)
    (hbad : transformItem pn pid bad = .error e) :
    fetch_and_transform_models pn pid (.ok (good ++ bad :: rest))
        = fetch_and_transform_models pn pid (.ok good)
      ∧ fetch_and_transform_models pn pid (.error e') = [] :=
  ⟨transformLoop_append_error pn pid good bad rest e hbad, rfl⟩

theorem C3_fetch_error_semantics_witness :
    transformItem "OpenAI" "openai" (.num 5) = .error .attributeError
      ∧ (fetch_and_transform_models "OpenAI" "openai"
            (.ok ([.obj [("id", .str "gpt-4o")]] ++ JValue.num 5 :: []))
          = fetch_and_transform_models "OpenAI" "openai" (.ok [.obj [("id", .str "gpt-4o")]])
        ∧ fetch_and_transform_models "OpenAI" "openai" (.error .typeError) = []) :=
  ⟨by decide, C3_fetch_error_semantics "OpenAI" "openai" [.obj [("id", .str "gpt-4o")]]
    (.num 5) [] .attributeError .typeError (by decide)⟩

/-- **C3** counterexample: an exception raised while transforming the second
descriptor does *not* make the step return an empty list — the first,
already-transformed candidate is returned (a partial list). -/
theorem C3_counterexample :
    transformItem "OpenAI" "openai" (.num 5) = .error .attributeError
      ∧ fetch_and_transform_models "OpenAI" "openai"
          (.ok [.obj [("id", .str "gpt-4o")], .num 5]) ≠ [] := by
  refine ⟨by decide, by decide⟩

/-- **C4** counterexample: a parsed catalog whose single model entry is an
empty dict makes the run raise an unhandled `KeyError` at the partitioning
comprehension of line 285 (`m["providerId"]`), so the run does *not*
complete for every parsed JSON document. -/
theorem C4_counterexample :
    runScript (.obj [("models", .arr [.obj []])]) [] false false (fun _ => false) true
      = .error .keyError := by decide

/-- **C4** (amended): for every parsed catalog whose model entries are all
dicts carrying a string `providerId` and a string `id`, the run completes
without an unhandled exception — for both values of the write toggle, since
a failure to write the output file is caught and only logged. -/
theorem C4_wf_run_completes (doc : JValue) (F : List MRecord) (r en : Bool)
    (pr : String → Bool) (canWrite : Bool) (current : List JValue)
    (hload : loadCurrent doc = .ok current)
    (hwf : ∀ v ∈ current, wfRec v) :
    ∃ res, runScript doc F r en pr canWrite = .ok res := by
  obtain ⟨mp, hmp⟩ := buildMap_ok_of_wf current [] hwf
  have hoth := buildOther_ok_of_wf current hwf
  have hall : ∀ o ∈ probeStep en pr (mergeLoop r F mp) ++ current.filterMap otherSel,
      ∃ k, sortKey o = .ok k := by
    intro o ho
    rcases List.mem_append.mp ho with hm | hm
    · obtain ⟨c, -, h1, h2, -⟩ := managedOut_shape r en pr F mp o hm
      exact ⟨(c.providerId, c.id), managedOut_sortKey c o h1 h2⟩
    · obtain ⟨hmem, -⟩ := otherSel_mem_prop current o hm
      obtain ⟨kvs, p, i, hv, hp, hi⟩ := hwf _ hmem
      cases hv
      exact ⟨(p, i), wf_sortKey o p i hp hi⟩
  have hsort := (sortStep_ok_iff (probeStep en pr (mergeLoop r F mp)
    ++ current.filterMap otherSel) _).mpr ⟨hall, rfl⟩
  have hrm : runMain doc F r en pr
      = .ok ((List.insertionSort recLE
          ((probeStep en pr (mergeLoop r F mp) ++ current.filterMap otherSel).map
            (fun o => (skey o, o)))).map Prod.snd) := by
    unfold runMain
    simp only [hload, hmp, hoth]
    exact hsort
  have hout := hrm
  exact ⟨_, by unfold runScript; rw [hout]⟩

theorem C4_wf_run_completes_witness :
    (loadCurrent (.obj [("models", .arr [.obj [("providerId", .str "zz"), ("id", .str "q")]])])
        = .ok [.obj [("providerId", .str "zz"), ("id", .str "q")]])
      ∧ (∃ res, runScript (.obj [("models", .arr [.obj [("providerId", .str "zz"),
            ("id", .str "q")]])]) [] false false (fun _ => false) false = .ok res) := by
  refine ⟨by decide, ?_⟩
  refine C4_wf_run_completes
    (.obj [("models", .arr [.obj [("providerId", .str "zz"), ("id", .str "q")]])])
    [] false false (fun _ => false) false
    [.obj [("providerId", .str "zz"), ("id", .str "q")]] (by decide) ?_
  intro v hv
  rcases List.mem_singleton.mp hv with rfl
  exact ⟨[("providerId", .str "zz"), ("id", .str "q")], "zz", "q", rfl, rfl, rfl⟩

/-- **C9**: the final output of every successful run is sorted ascending by
`providerId` and then by `id` (the lexicographic order `keyLE` on the sort
keys `skey` extracted by line 347). -/
theorem C9_output_sorted (doc : JValue) (F : List MRecord) (r en : Bool)
    (pr : String → Bool) (out : List JObj)
    (h : runMain doc F r en pr = .ok out) :
    out.Pairwise (fun a b => keyLE (skey a) (skey b) = true) := by
  obtain ⟨current, mp, others, -, -, -, hsort⟩ := runMain_ok_elim doc F r en pr out h
  exact sortStep_sorted _ out hsort

def C9doc : JValue :=
  .obj [("models", .arr [.obj [("providerId", .str "zz"), ("id", .str "b")],
    .obj [("providerId", .str "aa"), ("id", .str "q")]])]

theorem C9_output_sorted_witness :
    ([[("providerId", JValue.str "aa"), ("id", JValue.str "q")],
      [("providerId", JValue.str "zz"), ("id", JValue.str "b")]] : List JObj).Pairwise
        (fun a b => keyLE (skey a) (skey b) = true) :=
  C9_output_sorted C9doc [] false false (fun _ => false)
    [[("providerId", JValue.str "aa"), ("id", JValue.str "q")],
     [("providerId", JValue.str "zz"), ("id", JValue.str "b")]] (by decide)

/-- **C10**: the classifier returns a mapping defining exactly the six
capability flags (in the order of the `capabilities` dict literal), and
consequently every managed record in the output of a successful run defines
all six flags, even when the matching prior-catalog record was missing some
or all flag keys. -/
theorem C10_six_flags (doc : JValue) (F : List MRecord) (r en : Bool)
    (pr : String → Bool) (out : List JObj)
    (h : runMain doc F r en pr = .ok out) :
    (∀ (modelId displayName providerShortId : String) (apiData : Option JObj),
        (capsPairs (apply_heuristics_for_new_model modelId displayName providerShortId
          apiData)).map Prod.fst = flagNames)
      ∧ (∀ o ∈ out, isManagedRec o = true → ∀ f ∈ flagNames, o.hasKey f = true) := by
  refine ⟨fun _ _ _ _ => rfl, ?_⟩
  obtain ⟨current, mp, others, hload, hmp, hoth, hsort⟩ := runMain_ok_elim doc F r en pr out h
  intro o ho hmng f hf
  have ho' : o ∈ probeStep en pr (mergeLoop r F mp) ++ others :=
    (sortStep_perm _ out hsort).subset ho
  rcases List.mem_append.mp ho' with hm | hm
  · exact managedOut_flags r en pr F mp o hm f hf
  · rw [buildOther_eq current others hoth] at hm
    rw [(otherSel_mem_prop current o hm).2] at hmng
    cases hmng

def C10doc : JValue :=
  .obj [("models", .arr [.obj [("providerId", .str "openai"), ("id", .str "m")]])]

def C10fetched : List MRecord :=
  fetch_and_transform_models "OpenAI" "openai" (.ok [.obj [("id", .str "m")]])

def C10out : List JObj :=
  [[("id", .str "m"), ("provider", .str "OpenAI"), ("providerId", .str "openai"),
    ("name", .str "M"), ("multiModal", .bool false), ("canSearch", .bool false),
    ("canGenerateImages", .bool false), ("isAdvancedReasoner", .bool false),
    ("canAccessInternet", .bool false), ("supportsReasoning", .bool true)]]

theorem C10_six_flags_witness :
    (∀ (modelId displayName providerShortId : String) (apiData : Option JObj),
        (capsPairs (apply_heuristics_for_new_model modelId displayName providerShortId
          apiData)).map Prod.fst = flagNames)
      ∧ (∀ o ∈ C10out, isManagedRec o = true → ∀ f ∈ flagNames, o.hasKey f = true) :=
  C10_six_flags C10doc C10fetched false false (fun _ => false) C10out (by decide)

/-- **C5**: a managed record of the prior catalog whose (providerId, id) key
matches no fetched candidate does not appear in the output — stale managed
records are dropped, not carried forward. -/
theorem C5_stale_managed_dropped (doc : JValue) (F : List MRecord) (r en : Bool)
    (pr : String → Bool) (out : List JObj) (current : List JValue)
    (ro : JObj) (pv idv : JValue)
    (h : runMain doc F r en pr = .ok out)
    (hload : loadCurrent doc = .ok current)
    (hin : JValue.obj ro ∈ current)
    (hpidro : JObj.find ro "providerId" = some pv)
    (hmng : isManagedPid pv = true)
    (hidro : JObj.find ro "id" = some idv)
    (hnomatch : ∀ c ∈ F, ¬(pv = .str c.providerId ∧ idv = .str c.id)) :
    ro ∉ out := by
  intro hro
  obtain ⟨current', mp, others, hload', hmp, hoth, hsort⟩ :=
    runMain_ok_elim doc F r en pr out h
  rw [hload] at hload'
  have hcc : current' = current := (Except.ok.inj hload').symm
  rw [hcc] at hmp hoth
  have hro' : ro ∈ probeStep en pr (mergeLoop r F mp) ++ others :=
    (sortStep_perm _ out hsort).subset hro
  rcases List.mem_append.mp hro' with hm | hm
  · obtain ⟨c, hc, hpid', hid', -⟩ := managedOut_shape r en pr F mp ro hm
    rw [hpidro] at hpid'
    rw [hidro] at hid'
    exact hnomatch c hc ⟨Option.some.inj hpid', Option.some.inj hid'⟩
  · rw [buildOther_eq current others hoth] at hm
    have hprop := (otherSel_mem_prop current ro hm).2
    simp only [isManagedRec, hpidro] at hprop
    rw [hprop] at hmng
    cases hmng

def C5doc : JValue :=
  .obj [("models", .arr [.obj [("providerId", .str "openai"), ("id", .str "m"),
    ("x", .num 1)]])]

def C5fetched : List MRecord :=
  fetch_and_transform_models "OpenAI" "openai" (.ok [.obj [("id", .str "other")]])

def C5out : List JObj :=
  [[("id", .str "other"), ("provider", .str "OpenAI"), ("providerId", .str "openai"),
    ("name", .str "Other"), ("multiModal", .bool true), ("canSearch", .bool false),
    ("canGenerateImages", .bool false), ("isAdvancedReasoner", .bool true),
    ("canAccessInternet", .bool false), ("supportsReasoning", .bool true)]]

def C5c : MRecord :=
  { id := "other", provider := "OpenAI", providerId := "openai", name := "Other"
    caps := { multiModal := true, canSearch := false, canGenerateImages := false
              isAdvancedReasoner := true, canAccessInternet := false
              supportsReasoning := true } }

theorem C5_stale_managed_dropped_witness :
    ([("providerId", JValue.str "openai"), ("id", JValue.str "m"), ("x", JValue.num 1)] : JObj)
      ∉ C5out := by
  refine C5_stale_managed_dropped C5doc C5fetched false false (fun _ => false) C5out
    [.obj [("providerId", .str "openai"), ("id", .str "m"), ("x", .num 1)]]
    [("providerId", .str "openai"), ("id", .str "m"), ("x", .num 1)]
    (.str "openai") (.str "m")
    (by decide) (by decide) (by decide) (by decide) (by decide) (by decide) ?_
  intro c hc
  have hF : C5fetched = [C5c] := by decide
  rw [hF] at hc
  rcases List.mem_singleton.mp hc with rfl
  decide

/-- **C7**: records from providers outside the managed set pass through
verbatim: the non-managed part of the output is a permutation of the
non-managed records selected from the input catalog, so every "other"
record appears in the output with all fields unchanged, exactly once per
input occurrence — none is altered, duplicated or dropped.  (The fetched
candidates of an actual run all carry managed provider ids, which the
hypothesis `hpid` records.) -/
theorem C7_other_passthrough (doc : JValue) (F : List MRecord) (r en : Bool)
    (pr : String → Bool) (out : List JObj) (current : List JValue)
    (h : runMain doc F r en pr = .ok out)
    (hload : loadCurrent doc = .ok current)
    (hpid : ∀ c ∈ F, c.providerId ∈ managed_provider_ids) :
    (out.filter (fun o => !(isManagedRec o))).Perm (current.filterMap otherSel) := by
  obtain ⟨current', mp, others, hload', hmp, hoth, hsort⟩ :=
    runMain_ok_elim doc F r en pr out h
  rw [hload] at hload'
  have hcc : current' = current := (Except.ok.inj hload').symm
  rw [hcc] at hmp hoth
  have hperm : out.Perm (probeStep en pr (mergeLoop r F mp) ++ others) :=
    sortStep_perm _ out hsort
  have hfilter := hperm.filter (fun o => !(isManagedRec o))
  have hsplit : (probeStep en pr (mergeLoop r F mp) ++ others).filter
      (fun o => !(isManagedRec o)) = others := by
    apply filter_managed_split
    · intro x hx
      exact managedOut_isManaged r en pr F mp x hx hpid
    · intro y hy
      rw [buildOther_eq current others hoth] at hy
      exact (otherSel_mem_prop current y hy).2
  rw [hsplit] at hfilter
  rw [buildOther_eq current others hoth] at hfilter
  exact hfilter

def C7doc : JValue :=
  .obj [("models", .arr [.obj [("providerId", .str "zz"), ("id", .str "q"),
    ("extra", .str "e")]])]

theorem C7_other_passthrough_witness :
    (([[("providerId", JValue.str "zz"), ("id", JValue.str "q"),
        ("extra", JValue.str "e")]] : List JObj).filter
      (fun o => !(isManagedRec o))).Perm
        (([.obj [("providerId", .str "zz"), ("id", .str "q"),
          ("extra", .str "e")]] : List JValue).filterMap otherSel) := by
  refine C7_other_passthrough C7doc [] false false (fun _ => false)
    [[("providerId", .str "zz"), ("id", .str "q"), ("extra", .str "e")]]
    [.obj [("providerId", .str "zz"), ("id", .str "q"), ("extra", .str "e")]]
    (by decide) (by decide) ?_
  intro c hc
  cases hc

/-- Prior catalog for the C8 counterexample: managed record whose
`multiModal` differs from what the classifier computes for its id. -/
def C8doc : JValue :=
  .obj [("models", .arr [.obj [("providerId", .str "openai"), ("id", .str "m"),
    ("multiModal", .bool true)]])]

/-- A fetch result containing duplicate descriptors for the same id. -/
def C8fetched : List MRecord :=
  fetch_and_transform_models "OpenAI" "openai"
    (.ok [.obj [("id", .str "m")], .obj [("id", .str "m")]])

def C8rec1 : JObj :=
  [("id", .str "m"), ("provider", .str "OpenAI"), ("providerId", .str "openai"),
   ("name", .str "M"), ("multiModal", .bool true), ("canSearch", .bool false),
   ("canGenerateImages", .bool false), ("isAdvancedReasoner", .bool false),
   ("canAccessInternet", .bool false), ("supportsReasoning", .bool true)]

def C8rec2 : JObj :=
  [("id", .str "m"), ("provider", .str "OpenAI"), ("providerId", .str "openai"),
   ("name", .str "M"), ("multiModal", .bool false), ("canSearch", .bool false),
   ("canGenerateImages", .bool false), ("isAdvancedReasoner", .bool false),
   ("canAccessInternet", .bool false), ("supportsReasoning", .bool true)]

/-- **C8** counterexample: with duplicate fetched descriptors for the same
id, the first occurrence is merged (deleting the map entry) and the second
is appended as a "new" model, so the output contains two *distinct* records
with the *same* (providerId, id) key. -/
theorem C8_counterexample :
    runMain C8doc C8fetched false false (fun _ => false) = .ok [C8rec1, C8rec2]
      ∧ C8rec1 ≠ C8rec2 ∧ recKey C8rec1 = recKey C8rec2 :=
  ⟨by decide, by decide, by decide⟩

theorem isManagedRec_congr (a b : JObj) (h : recKey a = recKey b) :
    isManagedRec a = isManagedRec b := by
  have h1 : JObj.find a "providerId" = JObj.find b "providerId" := congrArg Prod.fst h
  simp [isManagedRec, h1]

/-- **C8** (amended): when the fetched candidates carry pairwise-distinct
(providerId, id) keys and the unmanaged records of the prior catalog carry
pairwise-distinct keys, every pair of distinct positions in the output holds
records with different (providerId, id) keys. -/
theorem C8_key_uniqueness (doc : JValue) (F : List MRecord) (r en : Bool)
    (pr : String → Bool) (out : List JObj) (current : List JValue) (others : List JObj)
    (h : runMain doc F r en pr = .ok out)
    (hload : loadCurrent doc = .ok current)
    (hoth : buildOther current = .ok others)
    (hpid : ∀ c ∈ F, c.providerId ∈ managed_provider_ids)
    (hF : (F.map ckey).Nodup)
    (hO : (others.map recKey).Nodup) :
    out.Pairwise (fun a b => recKey a ≠ recKey b) := by
  obtain ⟨current', mp, others', hload', hmp, hoth', hsort⟩ :=
    runMain_ok_elim doc F r en pr out h
  rw [hload] at hload'
  have hcc : current' = current := (Except.ok.inj hload').symm
  rw [hcc] at hmp hoth'
  rw [hoth] at hoth'
  have hoo : others' = others := (Except.ok.inj hoth').symm
  rw [hoo] at hsort
  have hF2 := managedOut_forall2 r en pr F mp
  have hFpair : F.Pairwise (fun c c' => ckey c ≠ ckey c') := List.pairwise_map.mp hF
  have hUpair : (probeStep en pr (mergeLoop r F mp)).Pairwise
      (fun a b => recKey a ≠ recKey b) := by
    refine pairwise_of_forall2 hF2 hFpair ?_
    intro c c' x x' hx hx' hne heq
    apply hne
    simp only [recKey, hx.1, hx.2, hx'.1, hx'.2, Prod.mk.injEq, Option.some.injEq,
      JValue.str.injEq] at heq
    simp [ckey, heq.1, heq.2]
  have hOpair : others.Pairwise (fun a b => recKey a ≠ recKey b) :=
    List.pairwise_map.mp hO
  have hcross : ∀ a ∈ probeStep en pr (mergeLoop r F mp), ∀ b ∈ others,
      recKey a ≠ recKey b := by
    intro a ha b hb heq
    have hmA : isManagedRec a = true := managedOut_isManaged r en pr F mp a ha hpid
    rw [buildOther_eq current others hoth] at hb
    have hmB : isManagedRec b = false := (otherSel_mem_prop current b hb).2
    rw [isManagedRec_congr a b heq, hmB] at hmA
    cases hmA
  have hpair : (probeStep en pr (mergeLoop r F mp) ++ others).Pairwise
      (fun a b => recKey a ≠ recKey b) :=
    List.pairwise_append.mpr ⟨hUpair, hOpair, hcross⟩
  exact ((sortStep_perm _ out hsort).pairwise_iff
    (fun {x y} hxy hh => hxy hh.symm)).mpr hpair

def C8wdoc : JValue :=
  .obj [("models", .arr [.obj [("providerId", .str "openai"), ("id", .str "m"),
    ("multiModal", .bool true)]])]

def C8wfetched : List MRecord :=
  fetch_and_transform_models "OpenAI" "openai" (.ok [.obj [("id", .str "m")]])

def C8wc : MRecord :=
  { id := "m", provider := "OpenAI", providerId := "openai", name := "M"
    caps := { multiModal := false, canSearch := false, canGenerateImages := false
              isAdvancedReasoner := false, canAccessInternet := false
              supportsReasoning := true } }

theorem C8_key_uniqueness_witness :
    ([C8rec1] : List JObj).Pairwise (fun a b => recKey a ≠ recKey b) := by
  refine C8_key_uniqueness C8wdoc C8wfetched false false (fun _ => false) [C8rec1]
    [.obj [("providerId", .str "openai"), ("id", .str "m"), ("multiModal", .bool true)]]
    [] (by decide) (by decide) (by decide) ?_ (by decide) (by decide)
  intro c hc
  have hFw : C8wfetched = [C8wc] := by decide
  rw [hFw] at hc
  rcases List.mem_singleton.mp hc with rfl
  decide

/-! ### Auxiliary lemmas for the idempotence claim -/

/-- The record the merge loop emits for one candidate. -/
def mergeOne (r : Bool) (mp : List (MKey × JObj)) (c : MRecord) : JObj :=
  match mapFind mp (ckey c) with
  | some existing => mergeEntry r existing c
  | none => MRecord.toJObj c

theorem mergeLoop_eq_map_mergeOne (r : Bool) (F : List MRecord)
    (mp : List (MKey × JObj)) (hnd : (F.map ckey).Nodup) :
    mergeLoop r F mp = F.map (mergeOne r mp) :=
  mergeLoop_eq_map r F mp hnd

theorem mergeOne_cases (r : Bool) (mp : List (MKey × JObj)) (c : MRecord) :
    (∃ ex, mergeOne r mp c = mergeEntry r ex c) ∨ mergeOne r mp c = MRecord.toJObj c := by
  unfold mergeOne
  cases mapFind mp (ckey c) with
  | some existing => exact Or.inl ⟨existing, rfl⟩
  | none => exact Or.inr rfl

theorem mergeOne_shape (r : Bool) (mp : List (MKey × JObj)) (c : MRecord) :
    JObj.find (mergeOne r mp c) "providerId" = some (.str c.providerId)
      ∧ JObj.find (mergeOne r mp c) "id" = some (.str c.id)
      ∧ (mergeOne r mp c).keys = (MRecord.toJObj c).keys := by
  rcases mergeOne_cases r mp c with ⟨ex, hex⟩ | hto
  · rw [hex]
    exact mergedRec_shape r c _ (Or.inl ⟨ex, rfl⟩)
  · rw [hto]
    exact mergedRec_shape r c _ (Or.inr rfl)

theorem mergeOne_self_merge (mp : List (MKey × JObj)) (c : MRecord) :
    mergeEntry false (mergeOne false mp c) c = mergeOne false mp c := by
  rcases mergeOne_cases false mp c with ⟨ex, hex⟩ | hto
  · rw [hex]
    exact mergeEntry_self ex c _ (Or.inl rfl)
  · rw [hto]
    exact mergeEntry_self [] c _ (Or.inr rfl)

theorem mergeOne_recKey (r : Bool) (mp : List (MKey × JObj)) (c : MRecord) :
    recKey (mergeOne r mp c) = (some (.str c.providerId), some (.str c.id)) := by
  obtain ⟨h1, h2, -⟩ := mergeOne_shape r mp c
  simp [recKey, h1, h2]

/-- Pairwise distinctness of the keys of the pre-sort list, from distinct
candidate keys and distinct unmanaged-record keys. -/
theorem preSort_pairwise_keys (r en : Bool) (pr : String → Bool) (F : List MRecord)
    (mp : List (MKey × JObj)) (current : List JValue) (others : List JObj)
    (hoth : buildOther current = .ok others)
    (hpid : ∀ c ∈ F, c.providerId ∈ managed_provider_ids)
    (hF : (F.map ckey).Nodup)
    (hO : (others.map recKey).Nodup) :
    (probeStep en pr (mergeLoop r F mp) ++ others).Pairwise
      (fun a b => recKey a ≠ recKey b) := by
  have hF2 := managedOut_forall2 r en pr F mp
  have hFpair : F.Pairwise (fun c c' => ckey c ≠ ckey c') := List.pairwise_map.mp hF
  have hUpair : (probeStep en pr (mergeLoop r F mp)).Pairwise
      (fun a b => recKey a ≠ recKey b) := by
    refine pairwise_of_forall2 hF2 hFpair ?_
    intro c c' x x' hx hx' hne heq
    apply hne
    simp only [recKey, hx.1, hx.2, hx'.1, hx'.2, Prod.mk.injEq, Option.some.injEq,
      JValue.str.injEq] at heq
    simp [ckey, heq.1, heq.2]
  have hOpair : others.Pairwise (fun a b => recKey a ≠ recKey b) :=
    List.pairwise_map.mp hO
  have hcross : ∀ a ∈ probeStep en pr (mergeLoop r F mp), ∀ b ∈ others,
      recKey a ≠ recKey b := by
    intro a ha b hb heq
    have hmA : isManagedRec a = true := managedOut_isManaged r en pr F mp a ha hpid
    rw [buildOther_eq current others hoth] at hb
    have hmB : isManagedRec b = false := (otherSel_mem_prop current b hb).2
    rw [isManagedRec_congr a b heq, hmB] at hmA
    cases hmA
  exact List.pairwise_append.mpr ⟨hUpair, hOpair, hcross⟩

theorem skey_nodup_of_recKey_nodup (L : List JObj)
    (hall : ∀ o ∈ L, ∃ k, sortKey o = .ok k)
    (hnd : (L.map recKey).Nodup) : (L.map skey).Nodup := by
  have hcong : L.map recKey = (L.map skey).map
      (fun k => (some (JValue.str k.1), some (JValue.str k.2))) := by
    rw [List.map_map]
    apply List.map_congr_left
    intro o ho
    obtain ⟨k, hk⟩ := hall o ho
    obtain ⟨h1, h2⟩ := sortKey_ok_inv o k hk
    have hsk : skey o = k := by simp [skey, hk]
    simp [recKey, h1, h2, hsk, Function.comp]
  rw [hcong] at hnd
  exact hnd.of_map

theorem mergeOne_find_some (r : Bool) (mp : List (MKey × JObj)) (c : MRecord)
    (ex : JObj) (h : mapFind mp (ckey c) = some ex) :
    mergeOne r mp c = mergeEntry r ex c := by
  unfold mergeOne
  rw [h]

/-- Prior catalog and duplicate-keyed fetch for the C6 counterexample. -/
def C6doc : JValue :=
  .obj [("models", .arr [.obj [("providerId", .str "openai"), ("id", .str "m"),
    ("multiModal", .bool true)]])]

def C6fetched : List MRecord :=
  fetch_and_transform_models "OpenAI" "openai"
    (.ok [.obj [("id", .str "m")], .obj [("id", .str "m")]])

/-- **C6** counterexample: with a fetch result containing duplicate
descriptors for the same id, running the merge a second time with the first
run's output as the prior catalog and the identical fetch result yields a
*different* output, so the merge is not idempotent for arbitrary fetch
results. -/
theorem C6_counterexample :
    (runMain C6doc C6fetched false false (fun _ => false)).map
        (fun o1 => (runMain (docOf o1) C6fetched false false (fun _ => false)).map
          (fun o2 => decide (o2 = o1)))
      = .ok (.ok false) := by decide

/-- **C6** (amended): the merge is idempotent with refresh disabled,
provided the fetched candidates carry pairwise-distinct (providerId, id)
keys and the prior catalog's unmanaged records carry pairwise-distinct keys
(the catalog's documented uniqueness invariant): running the merge again
with the first run's output as the prior catalog and the identical fetch
result reproduces the output exactly. -/
theorem C6_merge_idempotent (doc : JValue) (F : List MRecord) (pr : String → Bool)
    (current : List JValue) (others : List JObj) (out : List JObj)
    (hload : loadCurrent doc = .ok current)
    (hoth : buildOther current = .ok others)
    (hO : (others.map recKey).Nodup)
    (hF : (F.map ckey).Nodup)
    (hpid : ∀ c ∈ F, c.providerId ∈ managed_provider_ids)
    (h1 : runMain doc F false false pr = .ok out) :
    runMain (docOf out) F false false pr = .ok out := by
  obtain ⟨current', mp1, others', hload', hmp1, hoth', hsort1⟩ :=
    runMain_ok_elim doc F false false pr out h1
  rw [hload] at hload'
  have hcc : current' = current := (Except.ok.inj hload').symm
  rw [hcc] at hmp1 hoth'
  rw [hoth] at hoth'
  have hoo : others' = others := (Except.ok.inj hoth').symm
  rw [hoo] at hsort1
  rw [probeStep_false, mergeLoop_eq_map_mergeOne false F mp1 hF] at hsort1
  have hperm1 : out.Perm (F.map (mergeOne false mp1) ++ others) :=
    sortStep_perm _ out hsort1
  have hallL1 : ∀ o ∈ F.map (mergeOne false mp1) ++ others, ∃ k, sortKey o = .ok k :=
    ((sortStep_ok_iff _ out).mp hsort1).1
  have houteq := ((sortStep_ok_iff _ out).mp hsort1).2
  have hpairL1 : (F.map (mergeOne false mp1) ++ others).Pairwise
      (fun a b => recKey a ≠ recKey b) := by
    have hp := preSort_pairwise_keys false false pr F mp1 current others hoth hpid hF hO
    rw [probeStep_false, mergeLoop_eq_map_mergeOne false F mp1 hF] at hp
    exact hp
  have hndL1 : ((F.map (mergeOne false mp1) ++ others).map recKey).Nodup :=
    List.pairwise_map.mpr hpairL1
  have hndOut : (out.map recKey).Nodup := ((hperm1.map recKey).nodup_iff).mpr hndL1
  have hmemU1 : ∀ c ∈ F, mergeOne false mp1 c ∈ out := by
    intro c hc
    exact hperm1.symm.subset (List.mem_append.mpr (Or.inl (List.mem_map_of_mem _ hc)))
  have hwfOut : ∀ v ∈ out.map JValue.obj, wfRec v := by
    intro v hv
    obtain ⟨o, ho, rfl⟩ := List.mem_map.mp hv
    obtain ⟨k, hk⟩ := hallL1 o (hperm1.subset ho)
    obtain ⟨hp, hi⟩ := sortKey_ok_inv o k hk
    exact ⟨o, k.1, k.2, rfl, hp, hi⟩
  obtain ⟨mp2, hmp2⟩ := buildMap_ok_of_wf (out.map .obj) [] hwfOut
  have hothOut : buildOther (out.map .obj)
      = .ok (out.filter (fun o => !(isManagedRec o))) := by
    rw [buildOther_ok_of_wf (out.map .obj) hwfOut]
    congr 1
    apply filterMap_otherSel_map_obj
    intro o ho
    obtain ⟨k, hk⟩ := hallL1 o (hperm1.subset ho)
    rw [(sortKey_ok_inv o k hk).1]
    rfl
  have hfilter : (out.filter (fun o => !(isManagedRec o))).Perm others := by
    have hf := hperm1.filter (fun o => !(isManagedRec o))
    have hsplit : (F.map (mergeOne false mp1) ++ others).filter
        (fun o => !(isManagedRec o)) = others := by
      apply filter_managed_split
      · intro x hx
        obtain ⟨c, hc, rfl⟩ := List.mem_map.mp hx
        have h1x := (mergeOne_shape false mp1 c).1
        simp only [isManagedRec, h1x]
        exact (isManagedPid_str c.providerId).mpr (hpid c hc)
      · intro y hy
        rw [buildOther_eq current others hoth] at hy
        exact (otherSel_mem_prop current y hy).2
    rw [hsplit] at hf
    exact hf
  have hfind2 : ∀ c ∈ F, mapFind mp2 (ckey c) = some (mergeOne false mp1 c) := by
    intro c hc
    have hx := hmemU1 c hc
    obtain ⟨hpx, hix, -⟩ := mergeOne_shape false mp1 c
    have hsome : (mapFind mp2 (ckey c)).isSome = true :=
      buildMap_find_isSome_of_mem (out.map .obj) [] mp2 hmp2
        (mergeOne false mp1 c) c.providerId (.str c.id)
        (List.mem_map_of_mem _ hx) hpx hix
        ((isManagedPid_str c.providerId).mpr (hpid c hc))
    obtain ⟨v, hv⟩ := Option.isSome_iff_exists.mp hsome
    rcases buildMap_find_mem (out.map .obj) [] mp2 hmp2 (ckey c) v hv with
      h0 | ⟨hvin, hvp, hvi, -⟩
    · cases h0
    · obtain ⟨vo, hvo, hveq⟩ := List.mem_map.mp hvin
      have hvv : vo = v := by
        injection hveq
      rw [hvv] at hvo
      have hrk : recKey v = recKey (mergeOne false mp1 c) := by
        rw [mergeOne_recKey]
        simp only [ckey] at hvp hvi
        simp [recKey, hvp, hvi]
      have hveq2 : v = mergeOne false mp1 c :=
        List.inj_on_of_nodup_map hndOut hvo hx hrk
      rw [hv, hveq2]
  have hU2 : mergeLoop false F mp2 = F.map (mergeOne false mp1) := by
    rw [mergeLoop_eq_map_mergeOne false F mp2 hF]
    apply List.map_congr_left
    intro c hc
    rw [mergeOne_find_some false mp2 c _ (hfind2 c hc), mergeOne_self_merge mp1 c]
  have hallL2 : ∀ o ∈ F.map (mergeOne false mp1)
      ++ out.filter (fun o => !(isManagedRec o)), ∃ k, sortKey o = .ok k := by
    intro o ho
    rcases List.mem_append.mp ho with hm | hm
    · exact hallL1 o (List.mem_append.mpr (Or.inl hm))
    · exact hallL1 o (hperm1.subset (List.mem_filter.mp hm).1)
  have hpermL : (F.map (mergeOne false mp1)
      ++ out.filter (fun o => !(isManagedRec o))).Perm
        (F.map (mergeOne false mp1) ++ others) :=
    List.Perm.append_left _ hfilter
  have hndL1s : ((F.map (mergeOne false mp1) ++ others).map skey).Nodup :=
    skey_nodup_of_recKey_nodup _ hallL1 hndL1
  have hsorteq : List.insertionSort recLE
      ((F.map (mergeOne false mp1) ++ out.filter (fun o => !(isManagedRec o))).map
        (fun o => (skey o, o)))
      = List.insertionSort recLE ((F.map (mergeOne false mp1) ++ others).map
        (fun o => (skey o, o))) := by
    apply insertionSort_eq_of_perm_of_nodup_keys
    · exact hpermL.map _
    · have hnd2 : ((F.map (mergeOne false mp1)
          ++ out.filter (fun o => !(isManagedRec o))).map skey).Nodup :=
        ((hpermL.map skey).nodup_iff).mpr hndL1s
      simpa [List.map_map, Function.comp] using hnd2
  have hsort2 : sortStep (mergeLoop false F mp2
      ++ out.filter (fun o => !(isManagedRec o))) = .ok out := by
    rw [hU2]
    apply (sortStep_ok_iff _ out).mpr
    refine ⟨hallL2, ?_⟩
    rw [hsorteq]
    exact houteq
  unfold runMain
  simp only [loadCurrent_docOf, hmp2, hothOut, probeStep_false]
  exact hsort2

def C6wdoc : JValue :=
  .obj [("models", .arr [.obj [("providerId", .str "openai"), ("id", .str "m"),
    ("multiModal", .bool true)]])]

def C6wfetched : List MRecord :=
  fetch_and_transform_models "OpenAI" "openai" (.ok [.obj [("id", .str "m")]])

def C6wc : MRecord :=
  { id := "m", provider := "OpenAI", providerId := "openai", name := "M"
    caps := { multiModal := false, canSearch := false, canGenerateImages := false
              isAdvancedReasoner := false, canAccessInternet := false
              supportsReasoning := true } }

def C6wout : List JObj :=
  [[("id", .str "m"), ("provider", .str "OpenAI"), ("providerId", .str "openai"),
    ("name", .str "M"), ("multiModal", .bool true), ("canSearch", .bool false),
    ("canGenerateImages", .bool false), ("isAdvancedReasoner", .bool false),
    ("canAccessInternet", .bool false), ("supportsReasoning", .bool true)]]

theorem C6_merge_idempotent_witness :
    runMain (docOf C6wout) C6wfetched false false (fun _ => false) = .ok C6wout := by
  refine C6_merge_idempotent C6wdoc C6wfetched (fun _ => false)
    [.obj [("providerId", .str "openai"), ("id", .str "m"), ("multiModal", .bool true)]]
    [] C6wout (by decide) (by decide) (by decide) (by decide) ?_ (by decide)
  intro c hc
  have hFw : C6wfetched = [C6wc] := by decide
  rw [hFw] at hc
  rcases List.mem_singleton.mp hc with rfl
  decide
